import Mathlib

/-!
Verification of the BHex hexagonal-grid library: a shallow embedding of the
coordinate algebra (axial/cube conversion, fractional cube rounding), the
grid (construction, lookup, neighbors, hex distance) and the two
priority-queue searches (budgeted range expansion and A* path search),
together with proofs and refutations of the specified properties.

Modelling conventions:
 - JS numbers appear in the core grid logic only at integer values, so axial
   and cube coordinates are integers; cell costs and search scores are
   rationals.  Fractional cube coordinates (used by the drawing helper
   before rounding) are modelled separately over the rationals.
 - A cell key in the source is the string `x + "x" + y`; distinct integer
   pairs produce distinct such strings, so keys are modelled as the pair.
 - Search nodes are mutable JS objects shared between the heap and the
   key-indexed maps.  In both searches a key is associated to at most one
   node ever, so the heap is modelled as a list of keys resolved through the
   maps that own the nodes.
-/

namespace BHex

/-- Axial position of a hexagon within a grid (BHex.Axial). -/
structure Axial where
  x : ℤ
  y : ℤ
deriving DecidableEq, Repr

/-- The identity key of an axial position.  The source returns the string
`x + "x" + y`; on distinct integer pairs these strings are distinct, so the
key is modelled as the coordinate pair itself. -/
def Axial.key (a : Axial) : ℤ × ℤ :=
  (a.x, a.y)

/-- Cubic position of a hexagon (BHex.Cube). -/
structure Cube where
  x : ℤ
  y : ℤ
  z : ℤ
deriving DecidableEq, Repr

/-- The BHex.Cube constructor: `this.z = z || -x-y` defaults the third
coordinate when the passed z is falsy, which for a number argument means 0. -/
def mkCube (x y z : ℤ) : Cube :=
  ⟨x, y, if z = 0 then -x - y else z⟩

/-- BHex.Axial.prototype.toCube: `new BHex.Cube(this.x, -this.x - this.y, this.y)`. -/
def Axial.toCube (a : Axial) : Cube :=
  mkCube a.x (-a.x - a.y) a.y

/-- BHex.Cube.prototype.toAxial: `new BHex.Axial(this.x, this.z)`. -/
def Cube.toAxial (c : Cube) : Axial :=
  ⟨c.x, c.z⟩

/-- Fractional cube coordinate, as held by the same JS Cube class in the
drawing helper before rounding; modelled over the rationals. -/
structure QCube where
  x : ℚ
  y : ℚ
  z : ℚ
deriving DecidableEq, Repr

/-- JS Math.round: nearest integer, halves rounded toward positive
infinity.  The concrete inputs this development evaluates it on are far
from representation boundaries, so the rational model agrees with the
float computation. -/
def jsRound (q : ℚ) : ℤ :=
  ⌊q + 1 / 2⌋

/-- BHex.Cube.prototype.round (BHex.Drawing.js): round each component, then
recompute the component with the largest rounding residual from the other
two (x when its residual strictly dominates both others, else y when its
residual strictly exceeds z's, else z). -/
def QCube.round (c : QCube) : QCube :=
  let rx : ℤ := jsRound c.x
  let ry : ℤ := jsRound c.y
  let rz : ℤ := jsRound c.z
  let xDiff : ℚ := |(rx : ℚ) - c.x|
  let yDiff : ℚ := |(ry : ℚ) - c.y|
  let zDiff : ℚ := |(rz : ℚ) - c.z|
  if xDiff > yDiff ∧ xDiff > zDiff then ⟨((-ry - rz : ℤ) : ℚ), (ry : ℚ), (rz : ℚ)⟩
  else if yDiff > zDiff then ⟨(rx : ℚ), ((-rx - rz : ℤ) : ℚ), (rz : ℚ)⟩
  else ⟨(rx : ℚ), (ry : ℚ), ((-rx - ry : ℤ) : ℚ)⟩

/-- A fragment of JS values, sufficient to model the truthiness coercions in
the constructors.  NaN is not representable; the falsy number of the model
is 0. -/
inductive JsVal where
  | undef
  | null
  | bool (b : Bool)
  | num (q : ℚ)
  | str (s : String)
deriving DecidableEq, Repr

/-- JS truthiness on the modelled value fragment. -/
def JsVal.truthy : JsVal → Bool
  | .undef => false
  | .null => false
  | .bool b => b
  | .num q => decide (q ≠ 0)
  | .str s => decide (s ≠ "")

/-- A grid cell (BHex.Hexagon): an axial coordinate plus movement cost and
blocked flag. -/
structure Hexagon where
  x : ℤ
  y : ℤ
  cost : ℚ
  blocked : Bool
deriving DecidableEq, Repr

/-- The BHex.Hexagon constructor: `this.cost = (cost) ? cost : 1` keeps any
truthy cost and replaces a falsy one by 1 (for a numeric argument the falsy
value is 0, which also stands in for an absent argument);
`this.blocked = !!blocked` coerces the blocked argument to a boolean. -/
def mkHexagon (x y : ℤ) (cost : ℚ) (blocked : JsVal) : Hexagon :=
  ⟨x, y, if cost = 0 then 1 else cost, blocked.truthy⟩

/-- The identity key of a cell, as for axials. -/
def Hexagon.key (h : Hexagon) : ℤ × ℤ :=
  (h.x, h.y)

/-- The axial position of a cell. -/
def Hexagon.toAxial (h : Hexagon) : Axial :=
  ⟨h.x, h.y⟩

/-- A grid of hexagons (BHex.Grid). -/
structure Grid where
  radius : ℤ
  hexes : List Hexagon
deriving DecidableEq, Repr

/-- The inclusive integer range lo..hi, in the order iterated by the JS
`for (var i = lo; i <= hi; i++)` loops. -/
def intRange (lo hi : ℤ) : List ℤ :=
  (List.range (hi + 1 - lo).toNat).map fun (i : ℕ) => lo + (i : ℤ)

/-- The BHex.Grid constructor: `radius || 0` keeps every nonzero radius
(negative included) and maps 0 to itself; the triple loop over
[-radius, radius] pushes `new BHex.Hexagon(x, y)` (cost and blocked absent)
for every triple with x + y + z = 0. -/
def mkGrid (radius : ℤ) : Grid :=
  { radius := radius
    hexes :=
      (intRange (-radius) radius).flatMap fun x =>
        (intRange (-radius) radius).flatMap fun y =>
          ((intRange (-radius) radius).filter fun z => x + y + z == 0).map
            fun _ => mkHexagon x y 0 JsVal.undef }

/-- BHex.Grid.prototype.getHexAt: `hexes.some(...)` stops at the first hex
whose compareTo (coordinate equality) matches, and returns undefined when
none does. -/
def getHexAt (g : Grid) (a : Axial) : Option Hexagon :=
  g.hexes.find? fun h => h.x == a.x && h.y == a.y

/-- The six fixed neighbor offsets of BHex.Grid.prototype.getNeighbors, in
source order: (+1,0), (+1,-1), (0,-1), (-1,0), (-1,+1), (0,+1). -/
def neighborDirections (a : Axial) : List Axial :=
  [⟨a.x + 1, a.y⟩, ⟨a.x + 1, a.y - 1⟩, ⟨a.x, a.y - 1⟩,
   ⟨a.x - 1, a.y⟩, ⟨a.x - 1, a.y + 1⟩, ⟨a.x, a.y + 1⟩]

/-- BHex.Grid.prototype.getNeighbors: look each offset up independently and
push the hexes that exist, in offset order. -/
def getNeighbors (g : Grid) (a : Axial) : List Hexagon :=
  (neighborDirections a).foldl
    (fun acc d =>
      match getHexAt g d with
      | some h => acc ++ [h]
      | none => acc)
    []

/-- BHex.Grid.prototype.getDistance:
(|ax-bx| + |ax+ay-bx-by| + |ay-by|) / 2.  The sum is even, so the JS float
division by 2 is exact and the rational model agrees. -/
def getDistance (a b : Axial) : ℚ :=
  ((|a.x - b.x| + |a.x + a.y - b.x - b.y| + |a.y - b.y| : ℤ) : ℚ) / 2

/-- Keys index the per-search node maps. -/
abbrev Key := ℤ × ℤ

/-- A search node (BHex.Grid.Search.Node): the cell it scores, how it was
reached, the accumulated cost G, the heuristic H and the total F = G + H.
The parent is a JS object reference; since each search associates at most
one node to a key, it is modelled as the parent node's key. -/
structure SNode where
  hex : Hexagon
  parent : Option Key
  G : ℚ
  H : ℚ
  F : ℚ
deriving DecidableEq, Repr

/-- Node.prototype.rescore: set parent, G, H (a falsy h becomes 0; all call
sites with a present h pass a number) and F = G + H. -/
def SNode.rescore (n : SNode) (parent : Option Key) (g h : ℚ) : SNode :=
  { n with parent := parent, G := g, H := h, F := g + h }

/-- The Node constructor immediately rescores, so a fresh node carries
G = g, H = h, F = g + h. -/
def mkSNode (hex : Hexagon) (parent : Option Key) (g h : ℚ) : SNode :=
  ⟨hex, parent, g, h, g + h⟩

/-- First association of a key in a node map (JS object property lookup). -/
def findAssoc : List (Key × SNode) → Key → Option SNode
  | [], _ => none
  | p :: t, k => if p.1 = k then some p.2 else findAssoc t k

/-- In-place update of the node associated to a key, keeping its position
(mutation of the shared node object). -/
def updateAssoc : List (Key × SNode) → Key → SNode → List (Key × SNode)
  | [], _, _ => []
  | p :: t, k, n => if p.1 = k then (k, n) :: t else p :: updateAssoc t k n

/-- JS object property assignment: overwrite in place when the key is
present, append otherwise. -/
def insertAssoc (l : List (Key × SNode)) (k : Key) (n : SNode) : List (Key × SNode) :=
  if (findAssoc l k).isSome then updateAssoc l k n else l ++ [(k, n)]

/-- Extract-min of the binary heap, keyed by the score f.  A binary heap
leaves the order among equal scores unspecified; the model removes the
first element attaining the minimum and keeps the rest in order. -/
def pickMin (f : Key → ℚ) : List Key → Option (Key × List Key)
  | [] => none
  | k :: t =>
    match pickMin f t with
    | none => some (k, [])
    | some (k2, t2) => if f k ≤ f k2 then some (k, t) else some (k2, k :: t2)

/-- The search seeds its heap with the bare start axial, of which only the
coordinates and key are ever read (it has no cost or blocked fields); it is
modelled as a cost-1 unblocked hexagon at that position. -/
def startHexagon (a : Axial) : Hexagon :=
  ⟨a.x, a.y, 1, false⟩

/-- The seed node of getRange: `new Node(start, null, 0)` (H defaults to 0). -/
def rangeStartNode (a : Axial) : SNode :=
  mkSNode (startHexagon a) none 0 0

/-- State of one getRange invocation: the heap (keys of queued nodes), the
closed key set (`closedHexes` stores hexes, read only for membership) and
the visited map from key to best known node. -/
structure RangeState where
  heap : List Key
  closed : List Key
  visited : List (Key × SNode)
deriving DecidableEq, Repr

/-- Resolve a heap reference of getRange.  The heap only ever holds created
nodes (owned by the visited map) and the seed node; the start key is closed
at the very first pop and therefore never re-created, so distinct heap
nodes never share a key and key lookup recovers the referenced node. -/
def resolveR (a : Axial) (s : RangeState) (k : Key) : SNode :=
  match findAssoc s.visited k with
  | some n => n
  | none => rangeStartNode a

/-- The neighbor-processing body of getRange: skip blocked or closed
neighbors; with g = current.G + cost, a neighbor within budget is created
and pushed when unvisited, and rescored in place when visited with a
strictly larger G (rescoreElement reorders the heap without changing its
membership). -/
def rangeVisit (movement : ℚ) (currentKey : Key) (current : SNode)
    (s : RangeState) (n : Hexagon) : RangeState :=
  if n.blocked = true ∨ n.key ∈ s.closed then s
  else
    let g := current.G + n.cost
    match findAssoc s.visited n.key with
    | none =>
      if g ≤ movement then
        let node := mkSNode n (some currentKey) g 0
        { s with visited := s.visited ++ [(n.key, node)], heap := s.heap ++ [n.key] }
      else s
    | some v =>
      if g ≤ movement ∧ g < v.G then
        { s with visited := updateAssoc s.visited n.key (v.rescore (some currentKey) g 0) }
      else s

/-- One iteration of the getRange while loop: pop the minimum-F node, close
its key, and process its neighbors in order. -/
def rangeStep (g : Grid) (a : Axial) (movement : ℚ) (s : RangeState) : RangeState :=
  match pickMin (fun k => (resolveR a s k).F) s.heap with
  | none => s
  | some (k, heap2) =>
    let current := resolveR a s k
    let s1 : RangeState := { heap := heap2, closed := k :: s.closed, visited := s.visited }
    (getNeighbors g current.hex.toAxial).foldl (rangeVisit movement k current) s1

/-- The getRange while loop, driven by fuel.  Each iteration consumes one
heap element and pushes one element per newly created node; created nodes
have pairwise distinct keys drawn from the grid cells, so any fuel beyond
hexes.length + 1 outlasts the loop (proved below as rangeLoop_empties). -/
def rangeLoop (g : Grid) (a : Axial) (movement : ℚ) : Nat → RangeState → RangeState
  | 0, s => s
  | fuel + 1, s =>
    if s.heap = [] then s else rangeLoop g a movement fuel (rangeStep g a movement s)

/-- BHex.Grid.prototype.getRange: run the expansion from the seed and return
the hexes of the visited map in insertion order (the JS `for in` order for
these keys). -/
def getRange (g : Grid) (a : Axial) (movement : ℚ) : List Hexagon :=
  let init : RangeState := { heap := [a.key], closed := [], visited := [] }
  ((rangeLoop g a movement (g.hexes.length + 2) init).visited).map fun p => p.2.hex

/-- The seed node of findPath: `new Node(start, null, 0, getDistance(start, end))`. -/
def pathStartNode (a b : Axial) : SNode :=
  mkSNode (startHexagon a) none 0 (getDistance a b)

/-- State of one findPath invocation.  In this function `closedHexes` maps
keys to nodes: the popped current node is stored on closing, and — unlike in
getRange — each newly created node is stored there immediately as well
(source line `closedHexes[nNode.hex.getKey()] = nNode`), while
`visitedNodes` is read in the guard but never written. -/
structure PathState where
  heap : List Key
  closed : List (Key × SNode)
  visited : List (Key × SNode)
deriving DecidableEq, Repr

/-- Resolve a heap reference of findPath: created nodes live in the closed
map, the seed node joins it at its own (first) pop; before that the seed is
only referenced by the heap.  As in getRange, at most one node ever exists
per key. -/
def resolveP (a b : Axial) (s : PathState) (k : Key) : SNode :=
  match findAssoc s.closed k with
  | some n => n
  | none =>
    match findAssoc s.visited k with
    | some n => n
    | none => pathStartNode a b

/-- The neighbor-processing body of findPath: as in getRange but without a
budget cap, with H = getDistance(neighbor, end), and with the created node
recorded in the closed map instead of the visited map; the rescore branch
tests the (never written) visited map. -/
def pathVisit (b : Axial) (currentKey : Key) (current : SNode)
    (s : PathState) (n : Hexagon) : PathState :=
  if n.blocked = true ∨ (findAssoc s.closed n.key).isSome then s
  else
    let g := current.G + n.cost
    match findAssoc s.visited n.key with
    | none =>
      let h := getDistance n.toAxial b
      let node := mkSNode n (some currentKey) g h
      { s with closed := s.closed ++ [(n.key, node)], heap := s.heap ++ [n.key] }
    | some v =>
      if g < v.G then
        let h := getDistance n.toAxial b
        { s with visited := updateAssoc s.visited n.key (v.rescore (some currentKey) g h) }
      else s

/-- Walk the parent chain of the popped end node, collecting the hexes of
every node that has a parent; the JS loop pushes end first and reverses,
which is modelled by consing on the front.  Parents are always
earlier-created (hence closed) nodes, so the chain is finite; the fuel
passed by findPath exceeds its length. -/
def backtrack (a b : Axial) (s : PathState) : Nat → SNode → List Hexagon → List Hexagon
  | 0, _, acc => acc
  | fuel + 1, n, acc =>
    match n.parent with
    | none => acc
    | some pk => backtrack a b s fuel (resolveP a b s pk) (n.hex :: acc)

/-- The findPath while loop: pop the minimum-F node; if it is the end,
backtrack and return; otherwise store it in the closed map and process its
neighbors.  Fuel as in rangeLoop. -/
def pathLoop (g : Grid) (a b : Axial) : Nat → PathState → List Hexagon
  | 0, _ => []
  | fuel + 1, s =>
    match pickMin (fun k => (resolveP a b s k).F) s.heap with
    | none => []
    | some (k, heap2) =>
      let current := resolveP a b s k
      if current.hex.x = b.x ∧ current.hex.y = b.y then
        backtrack a b s (s.closed.length + 1) current []
      else
        let s1 : PathState :=
          { heap := heap2, closed := insertAssoc s.closed k current, visited := s.visited }
        pathLoop g a b fuel ((getNeighbors g current.hex.toAxial).foldl (pathVisit b k current) s1)

/-- BHex.Grid.prototype.findPath. -/
def findPath (g : Grid) (a b : Axial) : List Hexagon :=
  let init : PathState := { heap := [a.key], closed := [], visited := [] }
  pathLoop g a b (g.hexes.length + 2) init

/-- Modelled from the spec (§4.5): the path search as the specification
describes it, with open/closed/visited bookkeeping identical to getRange —
created nodes are recorded in the visited map and pushed, and a strictly
better G for a visited, unclosed node rescored in place — scored by
F = G + getDistance(cell, end) and without a budget cap.  It exists only to
compare the source findPath against the claimed bookkeeping. -/
def specVisit (b : Axial) (currentKey : Key) (current : SNode)
    (s : RangeState) (n : Hexagon) : RangeState :=
  if n.blocked = true ∨ n.key ∈ s.closed then s
  else
    let g := current.G + n.cost
    match findAssoc s.visited n.key with
    | none =>
      let node := mkSNode n (some currentKey) g (getDistance n.toAxial b)
      { s with visited := s.visited ++ [(n.key, node)], heap := s.heap ++ [n.key] }
    | some v =>
      if g < v.G then
        { s with visited :=
            updateAssoc s.visited n.key (v.rescore (some currentKey) g (getDistance n.toAxial b)) }
      else s

/-- Resolve a heap or parent reference of the spec-described path search. -/
def resolveS (a b : Axial) (s : RangeState) (k : Key) : SNode :=
  match findAssoc s.visited k with
  | some n => n
  | none => pathStartNode a b

/-- Parent-chain walk of the spec-described path search. -/
def specBacktrack (a b : Axial) (s : RangeState) : Nat → SNode → List Hexagon → List Hexagon
  | 0, _, acc => acc
  | fuel + 1, n, acc =>
    match n.parent with
    | none => acc
    | some pk => specBacktrack a b s fuel (resolveS a b s pk) (n.hex :: acc)

/-- The while loop of the spec-described path search. -/
def specLoop (g : Grid) (a b : Axial) : Nat → RangeState → List Hexagon
  | 0, _ => []
  | fuel + 1, s =>
    match pickMin (fun k => (resolveS a b s k).F) s.heap with
    | none => []
    | some (k, heap2) =>
      let current := resolveS a b s k
      if current.hex.x = b.x ∧ current.hex.y = b.y then
        specBacktrack a b s (s.visited.length + 1) current []
      else
        let s1 : RangeState := { heap := heap2, closed := k :: s.closed, visited := s.visited }
        specLoop g a b fuel ((getNeighbors g current.hex.toAxial).foldl (specVisit b k current) s1)

/-- Modelled from the spec: findPath with the §4.4 bookkeeping, see specVisit. -/
def findPathSpec (g : Grid) (a b : Axial) : List Hexagon :=
  let init : RangeState := { heap := [a.key], closed := [], visited := [] }
  specLoop g a b (g.hexes.length + 2) init

/-- The total traversal cost of a returned path: the sum of the cost of
each cell (the start cell is not part of a returned path). -/
def pathCost (l : List Hexagon) : ℚ :=
  (l.map Hexagon.cost).sum

/-- A walk through the grid as the searches can take it: each cell is an
unblocked member of getNeighbors of the previous position. -/
def isPath (g : Grid) : Axial → List Hexagon → Prop
  | _, [] => True
  | p, h :: t => h ∈ getNeighbors g p ∧ h.blocked = false ∧ isPath g h.toAxial t

instance isPathDecidable (g : Grid) : (a : Axial) → (l : List Hexagon) → Decidable (isPath g a l)
  | _, [] => .isTrue trivial
  | _, h :: t =>
    have : Decidable (isPath g h.toAxial t) := isPathDecidable g h.toAxial t
    inferInstanceAs (Decidable (_ ∧ _ ∧ _))

/-- Every cell of a grid has cost at least 1 (the documented caller contract
for the searches). -/
def WellCosted (g : Grid) : Prop :=
  ∀ h ∈ g.hexes, 1 ≤ h.cost

/-- The cells of a grid have pairwise distinct keys (true of every
constructed grid). -/
def NodupKeys (g : Grid) : Prop :=
  (g.hexes.map Hexagon.key).Nodup

/-- A user-mutated radius-2 grid: cells (1,-1) and (2,-1) blocked, cell
(0,1) at cost 9, cells (-1,2), (0,-1) and (0,0) at cost 3, all other costs
at the default 1.  On it the source findPath from (0,2) to (2,-2) settles
the cells around (1,1) before the cheap west detour is explored, and —
because created nodes land in closedHexes and visitedNodes stays empty —
never improves them. -/
def adjustCell (h : Hexagon) : Hexagon :=
  if h.key = (1, -1) ∨ h.key = (2, -1) then { h with blocked := true }
  else if h.key = (0, 1) then { h with cost := 9 }
  else if h.key = (-1, 2) ∨ h.key = (0, -1) ∨ h.key = (0, 0) then { h with cost := 3 }
  else h

/-- The mutated grid itself. -/
def bugGrid : Grid :=
  { radius := 2, hexes := (mkGrid 2).hexes.map adjustCell }

/-- An explicit unblocked walk of bugGrid from (0,2) to (2,-2) of total cost
9, cheaper than the cost-10 path findPath returns. -/
def cheapPath : List Hexagon :=
  [⟨-1, 2, 3, false⟩, ⟨-1, 1, 1, false⟩, ⟨-1, 0, 1, false⟩, ⟨-1, -1, 1, false⟩,
   ⟨0, -2, 1, false⟩, ⟨1, -2, 1, false⟩, ⟨2, -2, 1, false⟩]

/-- Twice the hex distance, as an integer; getDistance is its half. -/
def distInt (a b : Axial) : ℤ :=
  |a.x - b.x| + |a.x + a.y - b.x - b.y| + |a.y - b.y|

/-- Membership of a coordinate pair in the hexagonal board of radius r (the
index set of the triple loop of the grid constructor). -/
def inB (r : ℤ) (p : Axial) : Prop :=
  -r ≤ p.x ∧ p.x ≤ r ∧ -r ≤ p.y ∧ p.y ≤ r ∧ -r ≤ p.x + p.y ∧ p.x + p.y ≤ r

/-- The cell the grid constructor materializes at a coordinate pair. -/
def cellAt (p : Axial) : Hexagon :=
  ⟨p.x, p.y, 1, false⟩

/-- One expansion obligation of the range search: a closed node has offered
each unblocked neighbor the cost of stepping onto it, so the neighbor is the
start cell, or is visited with a G no worse than that offer, or the offer
exceeded the movement budget. -/
def expClause (a : Axial) (m : ℚ) (s : RangeState) (kc : Key) (n : Hexagon) : Prop :=
  n.key = a.key ∨
  (∃ nd, findAssoc s.visited n.key = some nd ∧ nd.G ≤ (resolveR a s kc).G + n.cost) ∨
  m < (resolveR a s kc).G + n.cost

/-- The execution invariant of getRange: consistency of the visited map
(one node per key, keyed by its cell, unblocked, within budget, H = 0 and
F = G, and its G realizable by an actual walk), the heap as exactly the
unclosed live keys, closed keys scoring below all open keys, and every
closed key having discharged its expansion obligations. -/
structure RInv (g : Grid) (a : Axial) (m : ℚ) (s : RangeState) : Prop where
  vkeys_nodup : (s.visited.map Prod.fst).Nodup
  vstart : findAssoc s.visited a.key = none
  vhexkey : ∀ k n, findAssoc s.visited k = some n → n.hex.key = k
  vhexmem : ∀ k n, findAssoc s.visited k = some n → n.hex ∈ g.hexes
  vunblocked : ∀ k n, findAssoc s.visited k = some n → n.hex.blocked = false
  vHF : ∀ k n, findAssoc s.visited k = some n → n.H = 0 ∧ n.F = n.G
  vGmov : ∀ k n, findAssoc s.visited k = some n → n.G ≤ m
  vGpos : ∀ k n, findAssoc s.visited k = some n → 0 ≤ n.G
  vreal : ∀ k n, findAssoc s.visited k = some n →
    ∃ l, isPath g a l ∧ l ≠ [] ∧ l.getLast? = some n.hex ∧ pathCost l ≤ n.G
  heap_nodup : s.heap.Nodup
  heap_iff : ∀ k, k ∈ s.heap ↔ (k = a.key ∨ findAssoc s.visited k ≠ none) ∧ k ∉ s.closed
  closed_sub : ∀ k ∈ s.closed, k = a.key ∨ findAssoc s.visited k ≠ none
  ord : ∀ kc ∈ s.closed, ∀ kh ∈ s.heap, (resolveR a s kc).F ≤ (resolveR a s kh).F
  expAll : ∀ kc ∈ s.closed, ∀ n ∈ getNeighbors g (resolveR a s kc).hex.toAxial,
    n.blocked = false → expClause a m s kc n
  start_closed : a.key ∈ s.closed ∨ (s.heap = [a.key] ∧ s.closed = [] ∧ s.visited = [])

/-- The invariant holding during the neighbor fold of one getRange
iteration, for the popped key k resolving to the node cur. -/
structure RMid (g : Grid) (a : Axial) (m : ℚ) (k : Key) (cur : SNode) (s : RangeState) : Prop where
  vkeys_nodup : (s.visited.map Prod.fst).Nodup
  vstart : findAssoc s.visited a.key = none
  vhexkey : ∀ k2 n, findAssoc s.visited k2 = some n → n.hex.key = k2
  vhexmem : ∀ k2 n, findAssoc s.visited k2 = some n → n.hex ∈ g.hexes
  vunblocked : ∀ k2 n, findAssoc s.visited k2 = some n → n.hex.blocked = false
  vHF : ∀ k2 n, findAssoc s.visited k2 = some n → n.H = 0 ∧ n.F = n.G
  vGmov : ∀ k2 n, findAssoc s.visited k2 = some n → n.G ≤ m
  vGpos : ∀ k2 n, findAssoc s.visited k2 = some n → 0 ≤ n.G
  vreal : ∀ k2 n, findAssoc s.visited k2 = some n →
    ∃ l, isPath g a l ∧ l ≠ [] ∧ l.getLast? = some n.hex ∧ pathCost l ≤ n.G
  heap_nodup : s.heap.Nodup
  heap_iff : ∀ k2, k2 ∈ s.heap ↔ (k2 = a.key ∨ findAssoc s.visited k2 ≠ none) ∧ k2 ∉ s.closed
  closed_sub : ∀ k2 ∈ s.closed, k2 = a.key ∨ findAssoc s.visited k2 ≠ none
  kclosed : k ∈ s.closed
  startc : a.key ∈ s.closed
  rescur : resolveR a s k = cur
  Fbound : ∀ kc ∈ s.closed, (resolveR a s kc).F ≤ cur.F
  ord : ∀ kc ∈ s.closed, ∀ kh ∈ s.heap, (resolveR a s kc).F ≤ (resolveR a s kh).F
  expOld : ∀ kc ∈ s.closed, kc ≠ k → ∀ n ∈ getNeighbors g (resolveR a s kc).hex.toAxial,
    n.blocked = false → expClause a m s kc n

/-- The number of distinct cell keys of a grid, bounding the number of
nodes any one search can create. -/
def keyBound (g : Grid) : ℕ :=
  ((g.hexes.map Hexagon.key).dedup).length

attribute [local semireducible] Rat.add Rat.mul Rat.sub Rat.inv

set_option maxRecDepth 8000

/-- C1, failing input: on bugGrid from (0,2) to (2,-2) the source findPath
disagrees with the spec-described search (identical bookkeeping to
getRange): the source stores every created node in closedHexes and never
writes visitedNodes, so the rescore branch is dead and the strictly better
G values that arise for the cells around (1,1) trigger neither creation nor
rescoring; the bookkeeping of the claim would return the cost-9 route where
the source returns a cost-10 one. -/
theorem findPath_bookkeeping_diverges :
    findPath bugGrid ⟨0, 2⟩ ⟨2, -2⟩ ≠ findPathSpec bugGrid ⟨0, 2⟩ ⟨2, -2⟩ ∧
    pathCost (findPathSpec bugGrid ⟨0, 2⟩ ⟨2, -2⟩) = 9 ∧
    pathCost (findPath bugGrid ⟨0, 2⟩ ⟨2, -2⟩) = 10 := by
  refine ⟨by decide, by decide, by decide⟩

/-- C2, failing input: on bugGrid, findPath from (0,2) to (2,-2) returns a
path ending at the goal of total cost 10, although cheapPath is a valid
unblocked walk to the same goal of total cost 9, so the returned route is
not the cheapest. -/
theorem findPath_not_cheapest :
    isPath bugGrid ⟨0, 2⟩ cheapPath ∧
    cheapPath.getLast? = some ⟨2, -2, 1, false⟩ ∧
    pathCost cheapPath = 9 ∧
    (findPath bugGrid ⟨0, 2⟩ ⟨2, -2⟩).getLast? = some ⟨2, -2, 1, false⟩ ∧
    pathCost (findPath bugGrid ⟨0, 2⟩ ⟨2, -2⟩) = 10 := by
  refine ⟨by decide, by decide, by decide, by decide, by decide⟩

/-- C3 counterexample: the hex distance from (-2,1) to (2,-1) is 4, not 3,
and the returned path has length 4, not 3. -/
theorem scenario_distance_counterexample :
    getDistance ⟨-2, 1⟩ ⟨2, -1⟩ = 4 ∧ ¬ getDistance ⟨-2, 1⟩ ⟨2, -1⟩ = 3 ∧
    (findPath (mkGrid 2) ⟨-2, 1⟩ ⟨2, -1⟩).length = 4 ∧
    ¬ (findPath (mkGrid 2) ⟨-2, 1⟩ ⟨2, -1⟩).length = 3 := by
  refine ⟨by decide, by decide, by decide, by decide⟩

/-- C3 amended: on the radius-2 all-default grid, getDistance((-2,1),(2,-1))
is 4 and findPath((-2,1),(2,-1)) returns a path of length 4 (excluding the
start) whose total traversal cost equals that distance. -/
theorem scenario_radius2_path :
    getDistance ⟨-2, 1⟩ ⟨2, -1⟩ = 4 ∧
    (findPath (mkGrid 2) ⟨-2, 1⟩ ⟨2, -1⟩).length = 4 ∧
    pathCost (findPath (mkGrid 2) ⟨-2, 1⟩ ⟨2, -1⟩) = getDistance ⟨-2, 1⟩ ⟨2, -1⟩ := by
  refine ⟨by decide, by decide, by decide⟩

/-- C4 counterexample: rounding the fractional cube (0.6, -1.3, 0.7) yields
(0, -1, 1), not the claimed (1, -1, 0): the components round to (1, -1, 1)
and the dominant x residual (0.4 against 0.3 and 0.3) makes x the recomputed
axis, so x becomes -(-1) - 1 = 0. -/
theorem round_counterexample :
    QCube.round ⟨3 / 5, -13 / 10, 7 / 10⟩ = ⟨0, -1, 1⟩ ∧
    ¬ QCube.round ⟨3 / 5, -13 / 10, 7 / 10⟩ = ⟨1, -1, 0⟩ := by
  refine ⟨by decide, by decide⟩

/-- C4 amended: rounding the fractional cube (0.6, -1.3, 0.7) yields the
lattice point (0, -1, 1): the components round to (1, -1, 1) with residuals
dx = 0.4, dy = 0.3, dz = 0.3, and the axis with the strictly largest
residual (x) is recomputed from the negated sum of the other two. -/
theorem round_example :
    jsRound (3 / 5) = 1 ∧ jsRound (-13 / 10) = -1 ∧ jsRound (7 / 10) = 1 ∧
    |(1 : ℚ) - 3 / 5| = 2 / 5 ∧ |(-1 : ℚ) - (-13 / 10)| = 3 / 10 ∧
    |(1 : ℚ) - 7 / 10| = 3 / 10 ∧
    QCube.round ⟨3 / 5, -13 / 10, 7 / 10⟩ = ⟨-(-1) - 1, -1, 1⟩ := by
  refine ⟨by decide, by decide, by decide, by decide, by decide, by decide, by decide⟩

/-- C5 counterexample: a negative radius and a fractional cost below 1 are
accepted without any validation: Grid(-1) is an ordinary grid object with
radius -1 and an empty cell list, and Hexagon(0, 0, 1/2) stores cost 1/2. -/
theorem construction_unvalidated :
    (mkGrid (-1)).radius = -1 ∧ (mkGrid (-1)).hexes = [] ∧
    (mkHexagon 0 0 (1 / 2) JsVal.undef).cost = 1 / 2 ∧
    (mkHexagon 0 0 (1 / 2) JsVal.undef).blocked = false := by
  refine ⟨by decide, by decide, by decide, by decide⟩

/-- C5 amended: malformed construction inputs are accepted silently rather
than rejected: any negative radius produces a grid storing that radius with
no cells, and any nonzero cost — below 1 included — is stored unchanged. -/
theorem construction_silent (r : ℤ) (hr : r < 0) (x y : ℤ) (c : ℚ) (b : JsVal)
    (hc : c ≠ 0) :
    (mkGrid r).radius = r ∧ (mkGrid r).hexes = [] ∧ (mkHexagon x y c b).cost = c := by
  refine ⟨rfl, ?_, by simp [mkHexagon, hc]⟩
  have h2 : intRange (-r) r = [] := by
    have h1 : (r + 1 - -r).toNat = 0 := by omega
    unfold intRange
    rw [h1]
    rfl
  simp [mkGrid, h2]

/-- Witness of construction_silent at radius -1 and cost 1/2. -/
theorem construction_silent_witness :
    (mkGrid (-1)).radius = -1 ∧ (mkGrid (-1)).hexes = [] ∧
    (mkHexagon 0 0 (1 / 2) JsVal.null).cost = 1 / 2 :=
  construction_silent (-1) (by norm_num) 0 0 (1 / 2) JsVal.null (by norm_num)

/-- C10: the Hexagon constructor turns the falsy cost 0 into the default 1,
stores any nonzero cost (fractions below 1 included) unchanged, and coerces
the blocked argument to a boolean, storing exactly its truthiness. -/
theorem hexagon_constructor_coercions (x y : ℤ) (c : ℚ) (b : JsVal) (hc : c ≠ 0) :
    (mkHexagon x y 0 b).cost = 1 ∧ (mkHexagon x y c b).cost = c ∧
    (mkHexagon x y c b).blocked = b.truthy := by
  refine ⟨by simp [mkHexagon], by simp [mkHexagon, hc], rfl⟩

/-- Witness of hexagon_constructor_coercions at cost 1/2 and a truthy
string. -/
theorem hexagon_constructor_coercions_witness :
    (mkHexagon 0 0 0 (JsVal.str "yes")).cost = 1 ∧
    (mkHexagon 0 0 (1 / 2) (JsVal.str "yes")).cost = 1 / 2 ∧
    (mkHexagon 0 0 (1 / 2) (JsVal.str "yes")).blocked = (JsVal.str "yes").truthy :=
  hexagon_constructor_coercions 0 0 (1 / 2) (JsVal.str "yes") (by norm_num)

theorem getDistance_eq_distInt (a b : Axial) : getDistance a b = (distInt a b : ℚ) / 2 :=
  rfl

theorem distInt_nonneg (a b : Axial) : 0 ≤ distInt a b := by
  unfold distInt
  positivity

theorem distInt_comm (a b : Axial) : distInt a b = distInt b a := by
  unfold distInt
  simp only [Int.abs_eq_natAbs]
  omega

theorem distInt_eq_zero (a b : Axial) : distInt a b = 0 ↔ a = b := by
  unfold distInt
  simp only [Int.abs_eq_natAbs]
  constructor
  · intro h
    have hx : a.x = b.x := by omega
    have hy : a.y = b.y := by omega
    cases a
    cases b
    simp_all
  · rintro rfl
    omega

theorem distInt_triangle (a b c : Axial) : distInt a b ≤ distInt a c + distInt c b := by
  unfold distInt
  simp only [Int.abs_eq_natAbs]
  omega

/-- C9: getDistance is symmetric, vanishes exactly at equal coordinates,
and satisfies the triangle inequality. -/
theorem getDistance_metric (a b c : Axial) :
    getDistance a b = getDistance b a ∧ (getDistance a b = 0 ↔ a = b) ∧
    getDistance a b ≤ getDistance a c + getDistance c b := by
  refine ⟨?_, ?_, ?_⟩
  · rw [getDistance_eq_distInt, getDistance_eq_distInt, distInt_comm]
  · rw [getDistance_eq_distInt, div_eq_zero_iff]
    constructor
    · intro hd
      rcases hd with hd | hd
      · exact (distInt_eq_zero a b).mp (by exact_mod_cast hd)
      · norm_num at hd
    · rintro rfl
      left
      exact_mod_cast (distInt_eq_zero a a).mpr rfl
  · rw [getDistance_eq_distInt, getDistance_eq_distInt, getDistance_eq_distInt,
      div_add_div_same]
    have h2 : (0 : ℚ) < 2 := by norm_num
    rw [div_le_div_iff_of_pos_right h2]
    exact_mod_cast distInt_triangle a b c

theorem foldl_push_eq_filterMap (f : Axial → Option Hexagon) (l : List Axial) :
    ∀ acc : List Hexagon,
      l.foldl (fun acc d => match f d with | some h => acc ++ [h] | none => acc) acc
        = acc ++ l.filterMap f := by
  induction l with
  | nil => intro acc; simp
  | cons d t ih =>
    intro acc
    cases hfd : f d <;> simp [List.filterMap_cons, hfd, ih]

theorem getNeighbors_eq_filterMap (g : Grid) (a : Axial) :
    getNeighbors g a = (neighborDirections a).filterMap (getHexAt g) := by
  unfold getNeighbors
  simpa using foldl_push_eq_filterMap (getHexAt g) (neighborDirections a) []

theorem getHexAt_eq_some (g : Grid) (d : Axial) (h : Hexagon) (hh : getHexAt g d = some h) :
    h ∈ g.hexes ∧ h.x = d.x ∧ h.y = d.y := by
  unfold getHexAt at hh
  have hmem := List.mem_of_find?_eq_some hh
  have hp := List.find?_some hh
  simp only [Bool.and_eq_true, beq_iff_eq] at hp
  exact ⟨hmem, hp.1, hp.2⟩

theorem mem_getNeighbors (g : Grid) (a : Axial) (h : Hexagon) :
    h ∈ getNeighbors g a ↔ ∃ d ∈ neighborDirections a, getHexAt g d = some h := by
  rw [getNeighbors_eq_filterMap]
  simp [List.mem_filterMap]

theorem distInt_neighborDirections (a d : Axial) (hd : d ∈ neighborDirections a) :
    distInt a d = 2 := by
  unfold neighborDirections at hd
  simp only [List.mem_cons, List.mem_singleton, List.not_mem_nil, or_false] at hd
  rcases hd with h | h | h | h | h | h <;>
    (subst h; unfold distInt; simp only [Int.abs_eq_natAbs]; omega)

theorem neighborDirections_keys_nodup (a : Axial) :
    ((neighborDirections a).map Axial.key).Nodup := by
  simp only [neighborDirections, Axial.key, List.map_cons, List.map_nil,
    List.nodup_cons, List.mem_cons, List.not_mem_nil, List.nodup_nil, Prod.mk.injEq]
  push_neg
  refine ⟨?_, ?_, ?_, ?_, ?_, ?_⟩ <;> simp <;> omega

theorem filterMap_getHexAt_keys_nodup (g : Grid) (ds : List Axial)
    (hnd : (ds.map Axial.key).Nodup) :
    ((ds.filterMap (getHexAt g)).map Hexagon.key).Nodup := by
  induction ds with
  | nil => simp
  | cons d t ih =>
    simp only [List.map_cons, List.nodup_cons] at hnd
    cases hfd : getHexAt g d with
    | none =>
      simp only [List.filterMap_cons, hfd]
      exact ih hnd.2
    | some h =>
      have hk := getHexAt_eq_some g d h hfd
      simp only [List.filterMap_cons, hfd, List.map_cons, List.nodup_cons]
      refine ⟨?_, ih hnd.2⟩
      intro hmem
      obtain ⟨h2, hh2, hkey⟩ := List.mem_map.mp hmem
      obtain ⟨d2, hd2, hg2⟩ := List.mem_filterMap.mp hh2
      have hk2 := getHexAt_eq_some g d2 h2 hg2
      apply hnd.1
      have : Axial.key d = Axial.key d2 := by
        unfold Axial.key
        unfold Hexagon.key at hkey
        rw [← hk.2.1, ← hk.2.2, ← hk2.2.1, ← hk2.2.2, hkey]
      rw [this]
      exact List.mem_map_of_mem Axial.key hd2

/-- C8: getNeighbors applies the six fixed offsets independently in source
order, silently omitting lookups that fall outside the grid, and returns at
most six pairwise distinct cells, each at hex distance exactly 1. -/
theorem getNeighbors_spec (g : Grid) (a : Axial) :
    getNeighbors g a = (neighborDirections a).filterMap (getHexAt g) ∧
    (getNeighbors g a).length ≤ 6 ∧ (getNeighbors g a).Nodup ∧
    ∀ h ∈ getNeighbors g a, getDistance a h.toAxial = 1 := by
  refine ⟨getNeighbors_eq_filterMap g a, ?_, ?_, ?_⟩
  · rw [getNeighbors_eq_filterMap]
    calc ((neighborDirections a).filterMap (getHexAt g)).length
        ≤ (neighborDirections a).length := List.length_filterMap_le _ _
      _ = 6 := rfl
  · rw [getNeighbors_eq_filterMap]
    exact (filterMap_getHexAt_keys_nodup g (neighborDirections a)
      (neighborDirections_keys_nodup a)).of_map
  · intro h hmem
    obtain ⟨d, hd, hsome⟩ := (mem_getNeighbors g a h).mp hmem
    have hc := getHexAt_eq_some g d h hsome
    have hax : h.toAxial = d := by
      unfold Hexagon.toAxial
      cases d
      simp [hc.2.1, hc.2.2]
    rw [getDistance_eq_distInt, hax, distInt_neighborDirections a d hd]
    norm_num

theorem axial_roundtrip (a : Axial) : a.toCube.toAxial = a := by
  cases a with
  | mk x y =>
    unfold Axial.toCube mkCube Cube.toAxial
    by_cases hy : y = 0 <;> simp [hy]

theorem intRange_length (lo hi : ℤ) : (intRange lo hi).length = (hi + 1 - lo).toNat := by
  unfold intRange
  rw [List.length_map, List.length_range]

theorem mem_intRange {lo hi z : ℤ} : z ∈ intRange lo hi ↔ lo ≤ z ∧ z ≤ hi := by
  simp only [intRange, List.mem_map, List.mem_range]
  constructor
  · rintro ⟨i, hi2, rfl⟩
    omega
  · intro hz
    exact ⟨(z - lo).toNat, by omega, by omega⟩

theorem intRange_nodup (lo hi : ℤ) : (intRange lo hi).Nodup := by
  refine List.Nodup.map ?_ (List.nodup_range _)
  intro i j hij
  have h2 : lo + (i : ℤ) = lo + (j : ℤ) := hij
  omega

theorem intRange_count (lo hi c : ℤ) :
    (intRange lo hi).count c = if lo ≤ c ∧ c ≤ hi then 1 else 0 := by
  by_cases hc : lo ≤ c ∧ c ≤ hi
  · rw [if_pos hc]
    exact List.count_eq_one_of_mem (intRange_nodup lo hi) (mem_intRange.mpr hc)
  · rw [if_neg hc]
    exact List.count_eq_zero.mpr fun hmem => hc (mem_intRange.mp hmem)

theorem intRange_filter_single (lo hi c : ℤ) :
    ((intRange lo hi).filter fun z => z == c).length = if lo ≤ c ∧ c ≤ hi then 1 else 0 := by
  rw [← List.countP_eq_length_filter]
  exact intRange_count lo hi c

theorem intRange_eq_cons {lo hi : ℤ} (h : lo ≤ hi) :
    intRange lo hi = lo :: intRange (lo + 1) hi := by
  unfold intRange
  have h1 : (hi + 1 - lo).toNat = (hi + 1 - (lo + 1)).toNat + 1 := by omega
  rw [h1, List.range_succ_eq_map, List.map_cons, List.map_map]
  simp only [List.cons.injEq]
  refine ⟨by omega, List.map_congr_left ?_⟩
  intro i hi2
  simp only [Function.comp_apply]
  push_cast
  ring

theorem Icc_eq_insert {lo hi : ℤ} (h : lo ≤ hi) :
    Finset.Icc lo hi = insert lo (Finset.Icc (lo + 1) hi) := by
  ext z
  simp only [Finset.mem_Icc, Finset.mem_insert]
  omega

theorem sum_map_intRange (f : ℤ → ℕ) :
    ∀ (n : ℕ) (lo hi : ℤ), (hi + 1 - lo).toNat = n →
      ((intRange lo hi).map f).sum = ∑ x in Finset.Icc lo hi, f x := by
  intro n
  induction n with
  | zero =>
    intro lo hi h
    have h3 : intRange lo hi = [] := by
      unfold intRange
      rw [h]
      rfl
    rw [h3, Finset.Icc_eq_empty (by omega)]
    simp
  | succ n ih =>
    intro lo hi h
    have hlh : lo ≤ hi := by omega
    rw [intRange_eq_cons hlh, Icc_eq_insert hlh, List.map_cons, List.sum_cons,
      Finset.sum_insert (by simp only [Finset.mem_Icc]; omega),
      ih (lo + 1) hi (by omega)]

theorem sum_abs_Icc (r : ℤ) (hr : 0 ≤ r) :
    ∑ x in Finset.Icc (-r) r, |x| = r * (r + 1) := by
  lift r to ℕ using hr
  induction r with
  | zero => simp
  | succ n ih =>
    have hsplit : Finset.Icc (-((n : ℤ) + 1)) ((n : ℤ) + 1) =
        insert (-((n : ℤ) + 1)) (insert ((n : ℤ) + 1) (Finset.Icc (-(n : ℤ)) (n : ℤ))) := by
      ext z
      simp only [Finset.mem_Icc, Finset.mem_insert]
      omega
    push_cast
    rw [hsplit, Finset.sum_insert (by simp only [Finset.mem_insert, Finset.mem_Icc]; omega),
      Finset.sum_insert (by simp only [Finset.mem_Icc]; omega)]
    push_cast at ih
    rw [ih]
    have h1 : |(-((n : ℤ) + 1))| = (n : ℤ) + 1 := by
      rw [abs_neg]
      exact abs_of_nonneg (by positivity)
    have h2 : |((n : ℤ) + 1)| = (n : ℤ) + 1 := abs_of_nonneg (by positivity)
    rw [h1, h2]
    ring

theorem mkGrid_length (r : ℤ) (hr : 0 ≤ r) :
    ((mkGrid r).hexes.length : ℤ) = 3 * r ^ 2 + 3 * r + 1 := by
  have hlen : (mkGrid r).hexes.length =
      ((intRange (-r) r).map (fun x =>
        ((intRange (-r) r).map (fun y =>
          if -r ≤ -(x + y) ∧ -(x + y) ≤ r then 1 else 0)).sum)).sum := by
    show ((intRange (-r) r).flatMap _).length = _
    rw [List.length_flatMap]
    refine congrArg List.sum (List.map_congr_left fun x hx => ?_)
    simp only [Function.comp_apply]
    rw [List.length_flatMap]
    refine congrArg List.sum (List.map_congr_left fun y hy => ?_)
    simp only [Function.comp_apply, List.length_map]
    have hfc : ((intRange (-r) r).filter fun z => x + y + z == 0)
        = (intRange (-r) r).filter fun z => z == -(x + y) := by
      refine List.filter_congr fun z hz => ?_
      rw [Bool.eq_iff_iff, beq_iff_eq, beq_iff_eq]
      omega
    rw [hfc, intRange_filter_single]
  have hx0 : ∀ x : ℤ, ((intRange (-r) r).map (fun y =>
      if -r ≤ -(x + y) ∧ -(x + y) ≤ r then 1 else 0)).sum
      = ((min r (r - x) + 1 - max (-r) (-r - x)).toNat) := by
    intro x
    rw [sum_map_intRange _ (r + 1 - -r).toNat (-r) r rfl]
    rw [← Finset.card_filter]
    have : (Finset.Icc (-r) r).filter (fun y => -r ≤ -(x + y) ∧ -(x + y) ≤ r)
        = Finset.Icc (max (-r) (-r - x)) (min r (r - x)) := by
      ext z
      simp only [Finset.mem_filter, Finset.mem_Icc]
      omega
    rw [this, Int.card_Icc]
  have hsum : (mkGrid r).hexes.length
      = ∑ x in Finset.Icc (-r) r, ((min r (r - x) + 1 - max (-r) (-r - x)).toNat) := by
    rw [hlen]
    rw [show ((intRange (-r) r).map (fun x =>
        ((intRange (-r) r).map (fun y =>
          if -r ≤ -(x + y) ∧ -(x + y) ≤ r then 1 else 0)).sum)).sum
      = ((intRange (-r) r).map (fun x =>
        ((min r (r - x) + 1 - max (-r) (-r - x)).toNat))).sum from
      congrArg List.sum (List.map_congr_left fun x hx => hx0 x)]
    exact sum_map_intRange _ (r + 1 - -r).toNat (-r) r rfl
  rw [hsum]
  rw [Nat.cast_sum]
  have hterm : ∀ x ∈ Finset.Icc (-r) r,
      (((min r (r - x) + 1 - max (-r) (-r - x)).toNat : ℤ)) = 2 * r + 1 - |x| := by
    intro x hx
    simp only [Finset.mem_Icc] at hx
    simp only [Int.abs_eq_natAbs]
    omega
  rw [Finset.sum_congr rfl hterm, Finset.sum_sub_distrib, sum_abs_Icc r hr,
    Finset.sum_const, Int.card_Icc, nsmul_eq_mul]
  have hcard : (((r + 1 - -r).toNat : ℤ)) = 2 * r + 1 := by omega
  rw [hcard]
  ring

/-- C6: for every radius r at least 0, the constructed grid has exactly
3r^2 + 3r + 1 cells, and the axial-to-cube-to-axial round trip is the
identity on every cell's axial coordinate. -/
theorem grid_count_roundtrip (r : ℤ) (hr : 0 ≤ r) :
    ((mkGrid r).hexes.length : ℤ) = 3 * r ^ 2 + 3 * r + 1 ∧
    ∀ h ∈ (mkGrid r).hexes, (Hexagon.toAxial h).toCube.toAxial = h.toAxial :=
  ⟨mkGrid_length r hr, fun h _ => axial_roundtrip h.toAxial⟩

/-- Witness of grid_count_roundtrip at radius 2. -/
theorem grid_count_roundtrip_witness :
    ((mkGrid 2).hexes.length : ℤ) = 3 * 2 ^ 2 + 3 * 2 + 1 ∧
    ∀ h ∈ (mkGrid 2).hexes, (Hexagon.toAxial h).toCube.toAxial = h.toAxial :=
  grid_count_roundtrip 2 (by norm_num)

theorem findAssoc_eq_none_iff (l : List (Key × SNode)) (k : Key) :
    findAssoc l k = none ↔ k ∉ l.map Prod.fst := by
  induction l with
  | nil => simp [findAssoc]
  | cons p t ih =>
    simp only [findAssoc]
    by_cases hp : p.1 = k
    · simp [hp]
    · rw [if_neg hp, ih]
      simp only [List.map_cons, List.mem_cons]
      constructor
      · intro hn hor
        rcases hor with h1 | h1
        · exact hp h1.symm
        · exact hn h1
      · intro hn h1
        exact hn (Or.inr h1)

theorem findAssoc_mem {l : List (Key × SNode)} {k : Key} {n : SNode}
    (h : findAssoc l k = some n) : (k, n) ∈ l := by
  induction l with
  | nil => simp [findAssoc] at h
  | cons p t ih =>
    simp only [findAssoc] at h
    by_cases hp : p.1 = k
    · rw [if_pos hp] at h
      have hn := Option.some.inj h
      have hpe : p = (k, n) := by
        obtain ⟨p1, p2⟩ := p
        simp only at hp hn
        rw [hp, hn]
      rw [← hpe]
      exact List.mem_cons_self p t
    · rw [if_neg hp] at h
      exact List.mem_cons_of_mem _ (ih h)

theorem mem_findAssoc {l : List (Key × SNode)} (hnd : (l.map Prod.fst).Nodup)
    {p : Key × SNode} (hp : p ∈ l) : findAssoc l p.1 = some p.2 := by
  induction l with
  | nil => simp at hp
  | cons q t ih =>
    simp only [List.map_cons, List.nodup_cons] at hnd
    rcases List.mem_cons.mp hp with h | h
    · rw [h]
      simp only [findAssoc]
      simp
    · simp only [findAssoc]
      have hne : q.1 ≠ p.1 := by
        intro he
        exact hnd.1 (he ▸ List.mem_map_of_mem Prod.fst h)
      rw [if_neg hne]
      exact ih hnd.2 h

theorem findAssoc_append_of_some {l : List (Key × SNode)} {k : Key} {n : SNode}
    (h : findAssoc l k = some n) (p : Key × SNode) :
    findAssoc (l ++ [p]) k = some n := by
  induction l with
  | nil => simp [findAssoc] at h
  | cons q t ih =>
    simp only [findAssoc, List.cons_append] at h ⊢
    by_cases hq : q.1 = k
    · rw [if_pos hq] at h ⊢
      exact h
    · rw [if_neg hq] at h ⊢
      exact ih h

theorem findAssoc_append_self {l : List (Key × SNode)} {k : Key}
    (h : findAssoc l k = none) (n : SNode) :
    findAssoc (l ++ [(k, n)]) k = some n := by
  induction l with
  | nil => simp [findAssoc]
  | cons q t ih =>
    simp only [findAssoc, List.cons_append] at h ⊢
    by_cases hq : q.1 = k
    · rw [if_pos hq] at h
      exact absurd h (by simp)
    · rw [if_neg hq] at h ⊢
      exact ih h

theorem findAssoc_append_of_ne {k0 k : Key} (hne : k ≠ k0) (l : List (Key × SNode))
    (n0 : SNode) : findAssoc (l ++ [(k0, n0)]) k = findAssoc l k := by
  induction l with
  | nil =>
    simp only [List.nil_append, findAssoc]
    rw [if_neg (fun h => hne h.symm)]
  | cons q t ih =>
    simp only [findAssoc, List.cons_append]
    by_cases hq : q.1 = k
    · rw [if_pos hq, if_pos hq]
    · rw [if_neg hq, if_neg hq]
      exact ih

theorem updateAssoc_keys (l : List (Key × SNode)) (k : Key) (n : SNode) :
    (updateAssoc l k n).map Prod.fst = l.map Prod.fst := by
  induction l with
  | nil => simp [updateAssoc]
  | cons q t ih =>
    simp only [updateAssoc]
    by_cases hq : q.1 = k
    · simp [hq]
    · simp [hq, ih]

theorem updateAssoc_length (l : List (Key × SNode)) (k : Key) (n : SNode) :
    (updateAssoc l k n).length = l.length := by
  induction l with
  | nil => simp [updateAssoc]
  | cons q t ih =>
    simp only [updateAssoc]
    by_cases hq : q.1 = k
    · simp [hq]
    · simp [hq, ih]

theorem findAssoc_updateAssoc_self {l : List (Key × SNode)} {k : Key}
    (h : findAssoc l k ≠ none) (n : SNode) :
    findAssoc (updateAssoc l k n) k = some n := by
  induction l with
  | nil => simp [findAssoc] at h
  | cons q t ih =>
    simp only [findAssoc, updateAssoc] at h ⊢
    by_cases hq : q.1 = k
    · rw [if_pos hq]
      simp only [findAssoc]
      simp
    · rw [if_neg hq] at h ⊢
      simp only [findAssoc]
      rw [if_neg hq]
      exact ih h

theorem findAssoc_updateAssoc_of_ne {k k2 : Key} (hne : k2 ≠ k) (l : List (Key × SNode))
    (n : SNode) : findAssoc (updateAssoc l k n) k2 = findAssoc l k2 := by
  induction l with
  | nil => simp [updateAssoc]
  | cons q t ih =>
    simp only [updateAssoc]
    by_cases hq : q.1 = k
    · rw [if_pos hq]
      simp only [findAssoc]
      rw [if_neg (fun h => hne h.symm), if_neg (by rw [hq]; exact fun h => hne h.symm)]
    · rw [if_neg hq]
      simp only [findAssoc]
      by_cases hq2 : q.1 = k2
      · rw [if_pos hq2, if_pos hq2]
      · rw [if_neg hq2, if_neg hq2]
        exact ih

theorem pickMin_eq_none {f : Key → ℚ} : ∀ {l : List Key}, pickMin f l = none → l = [] := by
  intro l h
  cases l with
  | nil => rfl
  | cons k t =>
    exfalso
    simp only [pickMin] at h
    cases ht : pickMin f t with
    | none => rw [ht] at h; simp at h
    | some p =>
      obtain ⟨k2, t2⟩ := p
      rw [ht] at h
      dsimp only at h
      by_cases hf : f k ≤ f k2
      · rw [if_pos hf] at h; simp at h
      · rw [if_neg hf] at h; simp at h

theorem pickMin_spec {f : Key → ℚ} :
    ∀ {l k rest}, pickMin f l = some (k, rest) →
      l.Perm (k :: rest) ∧ ∀ x ∈ l, f k ≤ f x := by
  intro l
  induction l with
  | nil => intro k rest h; simp [pickMin] at h
  | cons k0 t ih =>
    intro k rest h
    simp only [pickMin] at h
    cases ht : pickMin f t with
    | none =>
      rw [ht] at h
      have hte : t = [] := pickMin_eq_none ht
      simp only [Option.some.injEq, Prod.mk.injEq] at h
      obtain ⟨rfl, rfl⟩ := h
      subst hte
      exact ⟨List.Perm.refl _, fun x hx => by
        rcases List.mem_cons.mp hx with rfl | hx
        · exact le_refl _
        · simp at hx⟩
    | some p =>
      obtain ⟨k2, t2⟩ := p
      rw [ht] at h
      dsimp only at h
      obtain ⟨hperm, hmin⟩ := ih ht
      by_cases hf : f k0 ≤ f k2
      · rw [if_pos hf] at h
        simp only [Option.some.injEq, Prod.mk.injEq] at h
        obtain ⟨rfl, rfl⟩ := h
        refine ⟨List.Perm.refl _, fun x hx => ?_⟩
        rcases List.mem_cons.mp hx with rfl | hx
        · exact le_refl _
        · exact le_trans hf (hmin x hx)
      · rw [if_neg hf] at h
        simp only [Option.some.injEq, Prod.mk.injEq] at h
        obtain ⟨rfl, rfl⟩ := h
        constructor
        · have h1 : List.Perm (k0 :: t) (k0 :: k2 :: t2) := List.Perm.cons k0 hperm
          have h2 : List.Perm (k0 :: k2 :: t2) (k2 :: k0 :: t2) := List.Perm.swap k2 k0 t2
          exact h1.trans h2
        · intro x hx
          rcases List.mem_cons.mp hx with rfl | hx
          · exact le_of_lt (lt_of_not_le hf)
          · exact hmin x hx

theorem getNeighbors_subset {g : Grid} {p : Axial} {h : Hexagon}
    (hm : h ∈ getNeighbors g p) : h ∈ g.hexes := by
  obtain ⟨d, _, hsome⟩ := (mem_getNeighbors g p h).mp hm
  exact (getHexAt_eq_some g d h hsome).1

theorem getNeighbors_key_ne {g : Grid} {p : Axial} {h : Hexagon}
    (hm : h ∈ getNeighbors g p) : h.key ≠ p.key := by
  intro he
  obtain ⟨d, hd, hsome⟩ := (mem_getNeighbors g p h).mp hm
  obtain ⟨-, hx, hy⟩ := getHexAt_eq_some g d h hsome
  have h2 : distInt p h.toAxial = 2 := by
    have hax : h.toAxial = d := by
      obtain ⟨dx, dy⟩ := d
      unfold Hexagon.toAxial
      simp only at hx hy
      rw [hx, hy]
    rw [hax]
    exact distInt_neighborDirections p d hd
  have h0 : distInt p h.toAxial = 0 := by
    apply (distInt_eq_zero p h.toAxial).mpr
    unfold Hexagon.key Axial.key at he
    obtain ⟨px, py⟩ := p
    unfold Hexagon.toAxial
    simp only [Prod.mk.injEq] at he
    rw [he.1, he.2]
  omega

theorem isPath_mem_hexes {g : Grid} :
    ∀ {l : List Hexagon} {p : Axial}, isPath g p l → ∀ h ∈ l, h ∈ g.hexes := by
  intro l
  induction l with
  | nil => intro p _ h hm; simp at hm
  | cons h0 t ih =>
    intro p hp h hm
    obtain ⟨hn, _, ht⟩ := hp
    rcases List.mem_cons.mp hm with rfl | hm
    · exact getNeighbors_subset hn
    · exact ih ht h hm

theorem pathCost_cons (h : Hexagon) (t : List Hexagon) :
    pathCost (h :: t) = h.cost + pathCost t := by
  simp [pathCost]

theorem pathCost_append (l1 l2 : List Hexagon) :
    pathCost (l1 ++ l2) = pathCost l1 + pathCost l2 := by
  simp [pathCost]

theorem pathCost_nonneg {g : Grid} (HC : WellCosted g) {l : List Hexagon}
    (hl : ∀ h ∈ l, h ∈ g.hexes) : 0 ≤ pathCost l := by
  induction l with
  | nil => simp [pathCost]
  | cons h t ih =>
    rw [pathCost_cons]
    have h1 : 1 ≤ h.cost := HC h (hl h (List.mem_cons_self h t))
    have h2 : 0 ≤ pathCost t := ih fun x hx => hl x (List.mem_cons_of_mem h hx)
    linarith

theorem isPath_snoc {g : Grid} :
    ∀ {l : List Hexagon} {p : Axial} {h2 n : Hexagon},
      isPath g p l → l.getLast? = some h2 → n ∈ getNeighbors g h2.toAxial →
      n.blocked = false → isPath g p (l ++ [n]) := by
  intro l
  induction l with
  | nil => intro p h2 n _ hlast; simp at hlast
  | cons h0 t ih =>
    intro p h2 n hp hlast hn hb
    obtain ⟨hmem, hbl, ht⟩ := hp
    cases t with
    | nil =>
      simp only [List.getLast?_singleton, Option.some.injEq] at hlast
      subst hlast
      exact ⟨hmem, hbl, hn, hb, trivial⟩
    | cons h1 t2 =>
      rw [List.getLast?_cons_cons] at hlast
      exact ⟨hmem, hbl, ih ht hlast hn hb⟩

theorem nodup_of_length_le_one {α : Type} {l : List α} (h : l.length ≤ 1) : l.Nodup := by
  cases l with
  | nil => exact List.nodup_nil
  | cons a t =>
    cases t with
    | nil => simp
    | cons b t2 => simp at h

theorem resolveR_congr {a : Axial} {s s2 : RangeState} {k : Key}
    (h : findAssoc s2.visited k = findAssoc s.visited k) :
    resolveR a s2 k = resolveR a s k := by
  unfold resolveR
  rw [h]

theorem resolveR_some {a : Axial} {s : RangeState} {k : Key} {nd : SNode}
    (h : findAssoc s.visited k = some nd) : resolveR a s k = nd := by
  unfold resolveR
  rw [h]

theorem resolveR_none {a : Axial} {s : RangeState} {k : Key}
    (h : findAssoc s.visited k = none) : resolveR a s k = rangeStartNode a := by
  unfold resolveR
  rw [h]

theorem key_unique {g : Grid} (HK : NodupKeys g) {h1 h2 : Hexagon}
    (m1 : h1 ∈ g.hexes) (m2 : h2 ∈ g.hexes) (hk : h1.key = h2.key) : h1 = h2 :=
  List.inj_on_of_nodup_map HK m1 m2 hk

theorem RMid.cur_props {g : Grid} {a : Axial} {m : ℚ} {k : Key} {cur : SNode}
    {s : RangeState} (hm : RMid g a m k cur s) : cur.F = cur.G ∧ 0 ≤ cur.G := by
  rcases hm.closed_sub k hm.kclosed with hk | hk
  · have hc : cur = rangeStartNode a := by
      rw [← hm.rescur, hk, resolveR_none hm.vstart]
    rw [hc]
    constructor <;> norm_num [rangeStartNode, mkSNode]
  · cases hfa : findAssoc s.visited k with
    | none => exact absurd hfa hk
    | some nd =>
      have hc : cur = nd := by rw [← hm.rescur, resolveR_some hfa]
      rw [hc]
      exact ⟨(hm.vHF k nd hfa).2, hm.vGpos k nd hfa⟩

theorem rangeVisit_skip {m : ℚ} {k : Key} {cur : SNode} {s : RangeState} {n : Hexagon}
    (h : n.blocked = true ∨ n.key ∈ s.closed) : rangeVisit m k cur s n = s := by
  unfold rangeVisit
  rw [if_pos h]

theorem rangeVisit_create {m : ℚ} {k : Key} {cur : SNode} {s : RangeState} {n : Hexagon}
    (h1 : ¬(n.blocked = true ∨ n.key ∈ s.closed))
    (h2 : findAssoc s.visited n.key = none) (h3 : cur.G + n.cost ≤ m) :
    rangeVisit m k cur s n =
      { s with visited := s.visited ++ [(n.key, mkSNode n (some k) (cur.G + n.cost) 0)],
               heap := s.heap ++ [n.key] } := by
  unfold rangeVisit
  rw [if_neg h1]
  dsimp only
  rw [h2]
  dsimp only
  rw [if_pos h3]

theorem rangeVisit_create_fail {m : ℚ} {k : Key} {cur : SNode} {s : RangeState} {n : Hexagon}
    (h1 : ¬(n.blocked = true ∨ n.key ∈ s.closed))
    (h2 : findAssoc s.visited n.key = none) (h3 : ¬cur.G + n.cost ≤ m) :
    rangeVisit m k cur s n = s := by
  unfold rangeVisit
  rw [if_neg h1]
  dsimp only
  rw [h2]
  dsimp only
  rw [if_neg h3]

theorem rangeVisit_rescore {m : ℚ} {k : Key} {cur : SNode} {s : RangeState} {n : Hexagon}
    {v : SNode} (h1 : ¬(n.blocked = true ∨ n.key ∈ s.closed))
    (h2 : findAssoc s.visited n.key = some v)
    (h3 : cur.G + n.cost ≤ m ∧ cur.G + n.cost < v.G) :
    rangeVisit m k cur s n =
      { s with visited :=
          updateAssoc s.visited n.key (v.rescore (some k) (cur.G + n.cost) 0) } := by
  unfold rangeVisit
  rw [if_neg h1]
  dsimp only
  rw [h2]
  dsimp only
  rw [if_pos h3]

theorem rangeVisit_rescore_fail {m : ℚ} {k : Key} {cur : SNode} {s : RangeState} {n : Hexagon}
    {v : SNode} (h1 : ¬(n.blocked = true ∨ n.key ∈ s.closed))
    (h2 : findAssoc s.visited n.key = some v)
    (h3 : ¬(cur.G + n.cost ≤ m ∧ cur.G + n.cost < v.G)) :
    rangeVisit m k cur s n = s := by
  unfold rangeVisit
  rw [if_neg h1]
  dsimp only
  rw [h2]
  dsimp only
  rw [if_neg h3]

theorem RMid.extend_path {g : Grid} {a : Axial} {m : ℚ} {k : Key} {cur : SNode}
    {s : RangeState} {n : Hexagon} (hm : RMid g a m k cur s)
    (hn : n ∈ getNeighbors g cur.hex.toAxial) (hb : n.blocked = false) :
    ∃ l, isPath g a l ∧ l ≠ [] ∧ l.getLast? = some n ∧ pathCost l ≤ cur.G + n.cost := by
  rcases hm.closed_sub k hm.kclosed with hk | hk
  · have hc : cur = rangeStartNode a := by
      rw [← hm.rescur, hk, resolveR_none hm.vstart]
    refine ⟨[n], ?_, by simp, by simp, ?_⟩
    · have hax : cur.hex.toAxial = a := by rw [hc]; rfl
      rw [hax] at hn
      exact ⟨hn, hb, trivial⟩
    · rw [hc]
      simp [pathCost, rangeStartNode, mkSNode]
  · cases hfa : findAssoc s.visited k with
    | none => exact absurd hfa hk
    | some nd =>
      have hc : cur = nd := by rw [← hm.rescur, resolveR_some hfa]
      obtain ⟨l0, hp0, hne0, hl0, hc0⟩ := hm.vreal k nd hfa
      refine ⟨l0 ++ [n], ?_, by simp, List.getLast?_concat _, ?_⟩
      · refine isPath_snoc hp0 hl0 ?_ hb
        rw [hc] at hn
        exact hn
      · rw [pathCost_append]
        have hpn : pathCost [n] = n.cost := by simp [pathCost]
        rw [hpn, hc]
        linarith

theorem rangeVisit_count {m : ℚ} {k : Key} {cur : SNode} {s : RangeState} (n : Hexagon) :
    (rangeVisit m k cur s n).heap.length + s.visited.length
      = s.heap.length + (rangeVisit m k cur s n).visited.length := by
  by_cases hskip : n.blocked = true ∨ n.key ∈ s.closed
  · rw [rangeVisit_skip hskip]
  · cases hv : findAssoc s.visited n.key with
    | none =>
      by_cases hg : cur.G + n.cost ≤ m
      · rw [rangeVisit_create hskip hv hg]
        simp [List.length_append]
        omega
      · rw [rangeVisit_create_fail hskip hv hg]
    | some v =>
      by_cases hg : cur.G + n.cost ≤ m ∧ cur.G + n.cost < v.G
      · rw [rangeVisit_rescore hskip hv hg]
        simp [updateAssoc_length]
      · rw [rangeVisit_rescore_fail hskip hv hg]

theorem rangeVisit_presclause {a : Axial} {m : ℚ} {k : Key} {cur : SNode}
    {s : RangeState} {n : Hexagon} {kc : Key} (hkc : kc ∈ s.closed) {n2 : Hexagon}
    (hcl : expClause a m s kc n2) :
    expClause a m (rangeVisit m k cur s n) kc n2 := by
  by_cases hskip : n.blocked = true ∨ n.key ∈ s.closed
  · rw [rangeVisit_skip hskip]
    exact hcl
  · have hncl : n.key ∉ s.closed := fun hc => hskip (Or.inr hc)
    have hkcne : kc ≠ n.key := fun he => hncl (he ▸ hkc)
    cases hv : findAssoc s.visited n.key with
    | none =>
      by_cases hg : cur.G + n.cost ≤ m
      · rw [rangeVisit_create hskip hv hg]
        have hres : resolveR a { s with
            visited := s.visited ++ [(n.key, mkSNode n (some k) (cur.G + n.cost) 0)],
            heap := s.heap ++ [n.key] } kc = resolveR a s kc :=
          resolveR_congr (findAssoc_append_of_ne hkcne s.visited _)
        unfold expClause at hcl ⊢
        rw [hres]
        rcases hcl with h | h | h
        · exact Or.inl h
        · obtain ⟨nd, hnd, hbd⟩ := h
          exact Or.inr (Or.inl ⟨nd, findAssoc_append_of_some hnd _, hbd⟩)
        · exact Or.inr (Or.inr h)
      · rw [rangeVisit_create_fail hskip hv hg]
        exact hcl
    | some v =>
      by_cases hg : cur.G + n.cost ≤ m ∧ cur.G + n.cost < v.G
      · rw [rangeVisit_rescore hskip hv hg]
        have hres : resolveR a { s with
            visited := updateAssoc s.visited n.key (v.rescore (some k) (cur.G + n.cost) 0) } kc
            = resolveR a s kc :=
          resolveR_congr (findAssoc_updateAssoc_of_ne hkcne s.visited _)
        unfold expClause at hcl ⊢
        rw [hres]
        rcases hcl with h | h | h
        · exact Or.inl h
        · obtain ⟨nd, hnd, hbd⟩ := h
          by_cases hk2 : n2.key = n.key
          · rw [hk2] at hnd
            have hvnd : nd = v := by
              rw [hnd] at hv
              exact Option.some.inj hv
            refine Or.inr (Or.inl ⟨v.rescore (some k) (cur.G + n.cost) 0, ?_, ?_⟩)
            · rw [hk2]
              exact findAssoc_updateAssoc_self (by rw [hv]; simp) _
            · have : (v.rescore (some k) (cur.G + n.cost) 0).G = cur.G + n.cost := rfl
              rw [this]
              rw [hvnd] at hbd
              exact le_trans (le_of_lt hg.2) hbd
          · exact Or.inr (Or.inl ⟨nd, by
              rw [findAssoc_updateAssoc_of_ne hk2 s.visited _]
              exact hnd, hbd⟩)
        · exact Or.inr (Or.inr h)
      · rw [rangeVisit_rescore_fail hskip hv hg]
        exact hcl

theorem rangeVisit_newclause {g : Grid} {a : Axial} {m : ℚ} {k : Key} {cur : SNode}
    {s : RangeState} {n : Hexagon} (HC : WellCosted g)
    (hm : RMid g a m k cur s) (hn : n ∈ getNeighbors g cur.hex.toAxial)
    (hb : n.blocked = false) :
    expClause a m (rangeVisit m k cur s n) k n := by
  have hcostn : 1 ≤ n.cost := HC n (getNeighbors_subset hn)
  have hcp := hm.cur_props
  by_cases hskip : n.blocked = true ∨ n.key ∈ s.closed
  · rw [rangeVisit_skip hskip]
    have hncl : n.key ∈ s.closed := by
      rcases hskip with h | h
      · rw [hb] at h
        cases h
      · exact h
    rcases hm.closed_sub n.key hncl with hk | hk
    · exact Or.inl hk
    · cases hfa : findAssoc s.visited n.key with
      | none => exact absurd hfa hk
      | some nd =>
        refine Or.inr (Or.inl ⟨nd, hfa, ?_⟩)
        have h1 : (resolveR a s n.key).F ≤ cur.F := hm.Fbound n.key hncl
        rw [resolveR_some hfa] at h1
        have h2 := (hm.vHF n.key nd hfa).2
        rw [hm.rescur]
        linarith
  · have hncl : n.key ∉ s.closed := fun hc => hskip (Or.inr hc)
    have hkne : k ≠ n.key := fun he => hncl (he ▸ hm.kclosed)
    cases hv : findAssoc s.visited n.key with
    | none =>
      by_cases hg : cur.G + n.cost ≤ m
      · rw [rangeVisit_create hskip hv hg]
        refine Or.inr (Or.inl ⟨mkSNode n (some k) (cur.G + n.cost) 0, ?_, ?_⟩)
        · exact findAssoc_append_self hv _
        · have hres : resolveR a { s with
              visited := s.visited ++ [(n.key, mkSNode n (some k) (cur.G + n.cost) 0)],
              heap := s.heap ++ [n.key] } k = cur :=
            (resolveR_congr (findAssoc_append_of_ne hkne s.visited _)).trans hm.rescur
          rw [hres]
          simp [mkSNode]
      · rw [rangeVisit_create_fail hskip hv hg]
        refine Or.inr (Or.inr ?_)
        rw [hm.rescur]
        exact lt_of_not_le hg
    | some v =>
      by_cases hg : cur.G + n.cost ≤ m ∧ cur.G + n.cost < v.G
      · rw [rangeVisit_rescore hskip hv hg]
        refine Or.inr (Or.inl ⟨v.rescore (some k) (cur.G + n.cost) 0, ?_, ?_⟩)
        · exact findAssoc_updateAssoc_self (by rw [hv]; simp) _
        · have hres : resolveR a { s with
              visited := updateAssoc s.visited n.key (v.rescore (some k) (cur.G + n.cost) 0) } k
              = cur :=
            (resolveR_congr (findAssoc_updateAssoc_of_ne hkne s.visited _)).trans hm.rescur
          rw [hres]
          simp [SNode.rescore]
      · rw [rangeVisit_rescore_fail hskip hv hg]
        rcases not_and_or.mp hg with hg1 | hg1
        · refine Or.inr (Or.inr ?_)
          rw [hm.rescur]
          exact lt_of_not_le hg1
        · refine Or.inr (Or.inl ⟨v, hv, ?_⟩)
          rw [hm.rescur]
          exact le_of_not_lt hg1

theorem rangeVisit_mid {g : Grid} {a : Axial} {m : ℚ} {k : Key} {cur : SNode}
    {s : RangeState} {n : Hexagon} (HC : WellCosted g) (HK : NodupKeys g)
    (hm : RMid g a m k cur s) (hn : n ∈ getNeighbors g cur.hex.toAxial) :
    RMid g a m k cur (rangeVisit m k cur s n) := by
  by_cases hskip : n.blocked = true ∨ n.key ∈ s.closed
  · rw [rangeVisit_skip hskip]
    exact hm
  · have hb : n.blocked = false := by
      cases hbc : n.blocked
      · rfl
      · exact absurd (Or.inl hbc) hskip
    have hncl : n.key ∉ s.closed := fun hc => hskip (Or.inr hc)
    have hnmem : n ∈ g.hexes := getNeighbors_subset hn
    have hcostn : 1 ≤ n.cost := HC n hnmem
    have hcp := hm.cur_props
    have hkne : k ≠ n.key := fun he => hncl (he ▸ hm.kclosed)
    have hane : a.key ≠ n.key := fun he => hncl (he ▸ hm.startc)
    cases hv : findAssoc s.visited n.key with
    | none =>
      by_cases hg : cur.G + n.cost ≤ m
      · rw [rangeVisit_create hskip hv hg]
        set node := mkSNode n (some k) (cur.G + n.cost) 0 with hnodedef
        set s2 : RangeState := { s with
          visited := s.visited ++ [(n.key, node)],
          heap := s.heap ++ [n.key] } with hs2def
        have hvnotin : n.key ∉ s.visited.map Prod.fst := (findAssoc_eq_none_iff _ _).mp hv
        have hlook : ∀ k2, k2 ≠ n.key → findAssoc s2.visited k2 = findAssoc s.visited k2 :=
          fun k2 hk2 => findAssoc_append_of_ne hk2 s.visited _
        have hlookn : findAssoc s2.visited n.key = some node := findAssoc_append_self hv node
        have hnheap : n.key ∉ s.heap := by
          intro hmem
          rcases ((hm.heap_iff n.key).mp hmem).1 with h | h
          · exact hane h.symm
          · exact h hv
        have hres : ∀ k2, k2 ≠ n.key → resolveR a s2 k2 = resolveR a s k2 :=
          fun k2 hk2 => resolveR_congr (hlook k2 hk2)
        have hresn : resolveR a s2 n.key = node := resolveR_some hlookn
        have hnodeF : node.F = cur.G + n.cost := by simp [hnodedef, mkSNode]
        refine ⟨?_, ?_, ?_, ?_, ?_, ?_, ?_, ?_, ?_, ?_, ?_, ?_, ?_, ?_, ?_, ?_, ?_, ?_⟩
        · show ((s.visited ++ [(n.key, node)]).map Prod.fst).Nodup
          rw [List.map_append, List.nodup_append]
          refine ⟨hm.vkeys_nodup, by simp, ?_⟩
          intro x hx hx2
          simp only [List.map_cons, List.map_nil, List.mem_singleton] at hx2
          rw [hx2] at hx
          exact hvnotin hx
        · rw [hlook a.key hane]
          exact hm.vstart
        · intro k2 n2 hl
          by_cases hk2 : k2 = n.key
          · rw [hk2, hlookn] at hl
            rw [← Option.some.inj hl, hk2]
            rfl
          · exact hm.vhexkey k2 n2 (by rw [← hlook k2 hk2]; exact hl)
        · intro k2 n2 hl
          by_cases hk2 : k2 = n.key
          · rw [hk2, hlookn] at hl
            rw [← Option.some.inj hl]
            exact hnmem
          · exact hm.vhexmem k2 n2 (by rw [← hlook k2 hk2]; exact hl)
        · intro k2 n2 hl
          by_cases hk2 : k2 = n.key
          · rw [hk2, hlookn] at hl
            rw [← Option.some.inj hl]
            exact hb
          · exact hm.vunblocked k2 n2 (by rw [← hlook k2 hk2]; exact hl)
        · intro k2 n2 hl
          by_cases hk2 : k2 = n.key
          · rw [hk2, hlookn] at hl
            rw [← Option.some.inj hl]
            constructor
            · rfl
            · simp [hnodedef, mkSNode]
          · exact hm.vHF k2 n2 (by rw [← hlook k2 hk2]; exact hl)
        · intro k2 n2 hl
          by_cases hk2 : k2 = n.key
          · rw [hk2, hlookn] at hl
            rw [← Option.some.inj hl]
            exact hg
          · exact hm.vGmov k2 n2 (by rw [← hlook k2 hk2]; exact hl)
        · intro k2 n2 hl
          by_cases hk2 : k2 = n.key
          · rw [hk2, hlookn] at hl
            rw [← Option.some.inj hl]
            show (0 : ℚ) ≤ cur.G + n.cost
            linarith [hcp.2]
          · exact hm.vGpos k2 n2 (by rw [← hlook k2 hk2]; exact hl)
        · intro k2 n2 hl
          by_cases hk2 : k2 = n.key
          · rw [hk2, hlookn] at hl
            rw [← Option.some.inj hl]
            obtain ⟨l, hp, hne, hlast, hcost⟩ := hm.extend_path hn hb
            exact ⟨l, hp, hne, hlast, hcost⟩
          · exact hm.vreal k2 n2 (by rw [← hlook k2 hk2]; exact hl)
        · show (s.heap ++ [n.key]).Nodup
          rw [List.nodup_append]
          refine ⟨hm.heap_nodup, by simp, ?_⟩
          intro x hx hx2
          simp only [List.mem_singleton] at hx2
          rw [hx2] at hx
          exact hnheap hx
        · intro k2
          show k2 ∈ s.heap ++ [n.key] ↔ _
          by_cases hk2 : k2 = n.key
          · rw [hk2]
            simp only [List.mem_append, List.mem_singleton]
            constructor
            · intro _
              refine ⟨Or.inr ?_, hncl⟩
              rw [hlookn]
              simp
            · intro _
              simp
          · rw [hlook k2 hk2]
            simp only [List.mem_append, List.mem_singleton, hk2, or_false]
            exact hm.heap_iff k2
        · intro k2 hk2c
          have hk2 : k2 ≠ n.key := fun he => hncl (he ▸ hk2c)
          rw [hlook k2 hk2]
          exact hm.closed_sub k2 hk2c
        · exact hm.kclosed
        · exact hm.startc
        · rw [hres k hkne]
          exact hm.rescur
        · intro kc hkc
          have hkcne : kc ≠ n.key := fun he => hncl (he ▸ hkc)
          rw [hres kc hkcne]
          exact hm.Fbound kc hkc
        · intro kc hkc kh hkh
          have hkcne : kc ≠ n.key := fun he => hncl (he ▸ hkc)
          rw [hres kc hkcne]
          rcases List.mem_append.mp hkh with hh | hh
          · have hkhne : kh ≠ n.key := fun he => hnheap (he ▸ hh)
            rw [hres kh hkhne]
            exact hm.ord kc hkc kh hh
          · simp only [List.mem_singleton] at hh
            rw [hh, hresn, hnodeF]
            have h1 := hm.Fbound kc hkc
            linarith [hcp.1, hcp.2]
        · intro kc hkc hkck n2 hn2 hb2
          have hkcne : kc ≠ n.key := fun he => hncl (he ▸ hkc)
          rw [hres kc hkcne] at hn2
          have hclause := hm.expOld kc hkc hkck n2 hn2 hb2
          have hpres := @rangeVisit_presclause a m k cur s n kc hkc n2 hclause
          rw [rangeVisit_create hskip hv hg] at hpres
          exact hpres
      · rw [rangeVisit_create_fail hskip hv hg]
        exact hm
    | some v =>
      by_cases hg : cur.G + n.cost ≤ m ∧ cur.G + n.cost < v.G
      · rw [rangeVisit_rescore hskip hv hg]
        set node := v.rescore (some k) (cur.G + n.cost) 0 with hnodedef
        set s2 : RangeState := { s with
          visited := updateAssoc s.visited n.key node } with hs2def
        have hvne : findAssoc s.visited n.key ≠ none := by rw [hv]; simp
        have hlook : ∀ k2, k2 ≠ n.key → findAssoc s2.visited k2 = findAssoc s.visited k2 :=
          fun k2 hk2 => findAssoc_updateAssoc_of_ne hk2 s.visited _
        have hlookn : findAssoc s2.visited n.key = some node := findAssoc_updateAssoc_self hvne node
        have hres : ∀ k2, k2 ≠ n.key → resolveR a s2 k2 = resolveR a s k2 :=
          fun k2 hk2 => resolveR_congr (hlook k2 hk2)
        have hresn : resolveR a s2 n.key = node := resolveR_some hlookn
        have hnodeF : node.F = cur.G + n.cost := by simp [hnodedef, SNode.rescore]
        have hvhex : v.hex = n := by
          refine key_unique HK (hm.vhexmem n.key v hv) hnmem (hm.vhexkey n.key v hv)
        have hnodehex : node.hex = v.hex := rfl
        refine ⟨?_, ?_, ?_, ?_, ?_, ?_, ?_, ?_, ?_, ?_, ?_, ?_, ?_, ?_, ?_, ?_, ?_, ?_⟩
        · show ((updateAssoc s.visited n.key node).map Prod.fst).Nodup
          rw [updateAssoc_keys]
          exact hm.vkeys_nodup
        · rw [hlook a.key hane]
          exact hm.vstart
        · intro k2 n2 hl
          by_cases hk2 : k2 = n.key
          · rw [hk2, hlookn] at hl
            rw [← Option.some.inj hl, hk2, hnodehex]
            exact hm.vhexkey n.key v hv
          · exact hm.vhexkey k2 n2 (by rw [← hlook k2 hk2]; exact hl)
        · intro k2 n2 hl
          by_cases hk2 : k2 = n.key
          · rw [hk2, hlookn] at hl
            rw [← Option.some.inj hl, hnodehex]
            exact hm.vhexmem n.key v hv
          · exact hm.vhexmem k2 n2 (by rw [← hlook k2 hk2]; exact hl)
        · intro k2 n2 hl
          by_cases hk2 : k2 = n.key
          · rw [hk2, hlookn] at hl
            rw [← Option.some.inj hl, hnodehex]
            exact hm.vunblocked n.key v hv
          · exact hm.vunblocked k2 n2 (by rw [← hlook k2 hk2]; exact hl)
        · intro k2 n2 hl
          by_cases hk2 : k2 = n.key
          · rw [hk2, hlookn] at hl
            rw [← Option.some.inj hl]
            constructor
            · rfl
            · simp [hnodedef, SNode.rescore]
          · exact hm.vHF k2 n2 (by rw [← hlook k2 hk2]; exact hl)
        · intro k2 n2 hl
          by_cases hk2 : k2 = n.key
          · rw [hk2, hlookn] at hl
            rw [← Option.some.inj hl]
            exact hg.1
          · exact hm.vGmov k2 n2 (by rw [← hlook k2 hk2]; exact hl)
        · intro k2 n2 hl
          by_cases hk2 : k2 = n.key
          · rw [hk2, hlookn] at hl
            rw [← Option.some.inj hl]
            show (0 : ℚ) ≤ cur.G + n.cost
            linarith [hcp.2]
          · exact hm.vGpos k2 n2 (by rw [← hlook k2 hk2]; exact hl)
        · intro k2 n2 hl
          by_cases hk2 : k2 = n.key
          · rw [hk2, hlookn] at hl
            rw [← Option.some.inj hl]
            obtain ⟨l, hp, hne, hlast, hcost⟩ := hm.extend_path hn hb
            refine ⟨l, hp, hne, ?_, hcost⟩
            rw [hlast, hnodehex, hvhex]
          · exact hm.vreal k2 n2 (by rw [← hlook k2 hk2]; exact hl)
        · exact hm.heap_nodup
        · intro k2
          show k2 ∈ s.heap ↔ _
          by_cases hk2 : k2 = n.key
          · rw [hk2]
            have hold := hm.heap_iff n.key
            rw [hv] at hold
            rw [hlookn]
            simpa using hold
          · rw [hlook k2 hk2]
            exact hm.heap_iff k2
        · intro k2 hk2c
          have hk2 : k2 ≠ n.key := fun he => hncl (he ▸ hk2c)
          rw [hlook k2 hk2]
          exact hm.closed_sub k2 hk2c
        · exact hm.kclosed
        · exact hm.startc
        · rw [hres k hkne]
          exact hm.rescur
        · intro kc hkc
          have hkcne : kc ≠ n.key := fun he => hncl (he ▸ hkc)
          rw [hres kc hkcne]
          exact hm.Fbound kc hkc
        · intro kc hkc kh hkh
          have hkcne : kc ≠ n.key := fun he => hncl (he ▸ hkc)
          rw [hres kc hkcne]
          by_cases hkhne : kh = n.key
          · rw [hkhne, hresn, hnodeF]
            have h1 := hm.Fbound kc hkc
            linarith [hcp.1, hcp.2]
          · rw [hres kh hkhne]
            exact hm.ord kc hkc kh hkh
        · intro kc hkc hkck n2 hn2 hb2
          have hkcne : kc ≠ n.key := fun he => hncl (he ▸ hkc)
          rw [hres kc hkcne] at hn2
          have hclause := hm.expOld kc hkc hkck n2 hn2 hb2
          have hpres := @rangeVisit_presclause a m k cur s n kc hkc n2 hclause
          rw [rangeVisit_rescore hskip hv hg] at hpres
          exact hpres
      · rw [rangeVisit_rescore_fail hskip hv hg]
        exact hm

theorem foldl_rangeVisit {g : Grid} {a : Axial} {m : ℚ} {k : Key} {cur : SNode}
    (HC : WellCosted g) (HK : NodupKeys g) :
    ∀ (todo : List Hexagon) (s : RangeState),
      (∀ n ∈ todo, n ∈ getNeighbors g cur.hex.toAxial) →
      RMid g a m k cur s →
      (∀ n2 ∈ getNeighbors g cur.hex.toAxial,
        n2 ∈ todo ∨ (n2.blocked = false → expClause a m s k n2)) →
      RMid g a m k cur (todo.foldl (rangeVisit m k cur) s) ∧
      (∀ n2 ∈ getNeighbors g cur.hex.toAxial,
        n2.blocked = false → expClause a m (todo.foldl (rangeVisit m k cur) s) k n2) ∧
      (todo.foldl (rangeVisit m k cur) s).heap.length + s.visited.length
        = s.heap.length + (todo.foldl (rangeVisit m k cur) s).visited.length := by
  intro todo
  induction todo with
  | nil =>
    intro s htodo hmid hdone
    refine ⟨hmid, ?_, rfl⟩
    intro n2 hn2 hb2
    rcases hdone n2 hn2 with h | h
    · simp at h
    · exact h hb2
  | cons n t ih =>
    intro s htodo hmid hdone
    have hn : n ∈ getNeighbors g cur.hex.toAxial := htodo n (List.mem_cons_self n t)
    have hmid2 := rangeVisit_mid HC HK hmid hn
    have hcount := @rangeVisit_count m k cur s n
    have hnext : ∀ n2 ∈ getNeighbors g cur.hex.toAxial,
        n2 ∈ t ∨ (n2.blocked = false → expClause a m (rangeVisit m k cur s n) k n2) := by
      intro n2 hn2
      rcases hdone n2 hn2 with h | h
      · rcases List.mem_cons.mp h with rfl | h2
        · exact Or.inr fun hb2 => rangeVisit_newclause HC hmid hn hb2
        · exact Or.inl h2
      · exact Or.inr fun hb2 =>
          @rangeVisit_presclause a m k cur s n k hmid.kclosed n2 (h hb2)
    have hstep := ih (rangeVisit m k cur s n)
      (fun x hx => htodo x (List.mem_cons_of_mem n hx)) hmid2 hnext
    rw [List.foldl_cons]
    refine ⟨hstep.1, hstep.2.1, ?_⟩
    have h3 := hstep.2.2
    omega

theorem rangeStep_inv {g : Grid} {a : Axial} {m : ℚ}
    (HC : WellCosted g) (HK : NodupKeys g) {s : RangeState} (hinv : RInv g a m s) :
    RInv g a m (rangeStep g a m s) ∧
    (s.heap = [] ∧ rangeStep g a m s = s ∨
     (rangeStep g a m s).heap.length + s.visited.length + 1
       = s.heap.length + (rangeStep g a m s).visited.length) := by
  unfold rangeStep
  cases hpick : pickMin (fun k2 => (resolveR a s k2).F) s.heap with
  | none =>
    exact ⟨hinv, Or.inl ⟨pickMin_eq_none hpick, rfl⟩⟩
  | some p =>
    obtain ⟨k, heap2⟩ := p
    dsimp only
    obtain ⟨hperm, hmin⟩ := pickMin_spec hpick
    have hkheap : k ∈ s.heap := hperm.mem_iff.mpr (List.mem_cons_self k heap2)
    have hknodup : (k :: heap2).Nodup := (hperm.nodup_iff).mp hinv.heap_nodup
    have hknotin : k ∉ heap2 := (List.nodup_cons.mp hknodup).1
    have h2nodup : heap2.Nodup := (List.nodup_cons.mp hknodup).2
    have hmem2 : ∀ x, x ∈ heap2 ↔ x ∈ s.heap ∧ x ≠ k := by
      intro x
      constructor
      · intro hx
        refine ⟨hperm.mem_iff.mpr (List.mem_cons_of_mem k hx), ?_⟩
        rintro rfl
        exact hknotin hx
      · rintro ⟨hx, hne⟩
        rcases List.mem_cons.mp (hperm.mem_iff.mp hx) with h | h
        · exact absurd h hne
        · exact h
    have hmid : RMid g a m k (resolveR a s k)
        { heap := heap2, closed := k :: s.closed, visited := s.visited } := by
      refine ⟨hinv.vkeys_nodup, hinv.vstart, hinv.vhexkey, hinv.vhexmem, hinv.vunblocked,
        hinv.vHF, hinv.vGmov, hinv.vGpos, hinv.vreal, h2nodup, ?_, ?_, ?_, ?_, rfl, ?_, ?_, ?_⟩
      · intro k2
        rw [hmem2 k2]
        have hold := hinv.heap_iff k2
        simp only [List.mem_cons, not_or]
        constructor
        · rintro ⟨hx, hne⟩
          obtain ⟨hd, hc⟩ := hold.mp hx
          exact ⟨hd, hne, hc⟩
        · rintro ⟨hd, hne, hc⟩
          exact ⟨hold.mpr ⟨hd, hc⟩, hne⟩
      · intro k2 hk2
        rcases List.mem_cons.mp hk2 with rfl | h
        · exact ((hinv.heap_iff k2).mp hkheap).1
        · exact hinv.closed_sub k2 h
      · exact List.mem_cons_self k s.closed
      · rcases hinv.start_closed with h | ⟨hh, hc, hv⟩
        · exact List.mem_cons_of_mem k h
        · have : k = a.key := by
            rw [hh] at hkheap
            simpa using hkheap
          rw [this]
          exact List.mem_cons_self _ _
      · intro kc hkc
        rcases List.mem_cons.mp hkc with rfl | h
        · exact le_refl _
        · exact hinv.ord kc h k hkheap
      · intro kc hkc kh hkh
        have hkhs : kh ∈ s.heap := ((hmem2 kh).mp hkh).1
        rcases List.mem_cons.mp hkc with rfl | h
        · exact hmin kh hkhs
        · exact hinv.ord kc h kh hkhs
      · intro kc hkc hkck n2 hn2 hb2
        have hkcs : kc ∈ s.closed := by
          rcases List.mem_cons.mp hkc with rfl | h
          · exact absurd rfl hkck
          · exact h
        exact hinv.expAll kc hkcs n2 hn2 hb2
    have hfold := foldl_rangeVisit HC HK (getNeighbors g (resolveR a s k).hex.toAxial)
      { heap := heap2, closed := k :: s.closed, visited := s.visited }
      (fun n h => h) hmid (fun n2 hn2 => Or.inl hn2)
    obtain ⟨hfm, hfc, hfcount⟩ := hfold
    constructor
    · refine ⟨hfm.vkeys_nodup, hfm.vstart, hfm.vhexkey, hfm.vhexmem, hfm.vunblocked,
        hfm.vHF, hfm.vGmov, hfm.vGpos, hfm.vreal, hfm.heap_nodup, hfm.heap_iff,
        hfm.closed_sub, hfm.ord, ?_, Or.inl hfm.startc⟩
      intro kc hkc n2 hn2 hb2
      by_cases hkck : kc = k
      · subst hkck
        rw [hfm.rescur] at hn2
        exact hfc n2 hn2 hb2
      · exact hfm.expOld kc hkc hkck n2 hn2 hb2
    · refine Or.inr ?_
      have hlen : s.heap.length = heap2.length + 1 := by
        have := hperm.length_eq
        simpa using this
      simp only at hfcount
      omega

theorem rangeInit_inv (g : Grid) (a : Axial) (m : ℚ) :
    RInv g a m { heap := [a.key], closed := [], visited := [] } := by
  refine ⟨?_, ?_, ?_, ?_, ?_, ?_, ?_, ?_, ?_, ?_, ?_, ?_, ?_, ?_, ?_⟩
  · simp
  · simp [findAssoc]
  · intro k n h
    simp [findAssoc] at h
  · intro k n h
    simp [findAssoc] at h
  · intro k n h
    simp [findAssoc] at h
  · intro k n h
    simp [findAssoc] at h
  · intro k n h
    simp [findAssoc] at h
  · intro k n h
    simp [findAssoc] at h
  · intro k n h
    simp [findAssoc] at h
  · simp
  · intro k
    simp [findAssoc]
  · intro k h
    simp at h
  · intro kc h
    simp at h
  · intro kc h
    simp at h
  · exact Or.inr ⟨rfl, rfl, rfl⟩

theorem rangeLoop_inv {g : Grid} {a : Axial} {m : ℚ}
    (HC : WellCosted g) (HK : NodupKeys g) :
    ∀ (fuel : ℕ) (s : RangeState), RInv g a m s → RInv g a m (rangeLoop g a m fuel s) := by
  intro fuel
  induction fuel with
  | zero => intro s h; exact h
  | succ f ih =>
    intro s h
    simp only [rangeLoop]
    by_cases hh : s.heap = []
    · rw [if_pos hh]
      exact h
    · rw [if_neg hh]
      exact ih _ (rangeStep_inv HC HK h).1

theorem visited_le_keyBound {g : Grid} {a : Axial} {m : ℚ} {s : RangeState}
    (hinv : RInv g a m s) : s.visited.length ≤ keyBound g := by
  have h1 : s.visited.length = (s.visited.map Prod.fst).length := (List.length_map _ _).symm
  rw [h1]
  have hnd := hinv.vkeys_nodup
  have hsub : ∀ x ∈ s.visited.map Prod.fst, x ∈ g.hexes.map Hexagon.key := by
    intro x hx
    obtain ⟨p, hp, hpx⟩ := List.mem_map.mp hx
    have hfa := mem_findAssoc hnd hp
    have h2 := hinv.vhexkey p.1 p.2 hfa
    have h3 := hinv.vhexmem p.1 p.2 hfa
    rw [← hpx, ← h2]
    exact List.mem_map_of_mem Hexagon.key h3
  have h2 : (s.visited.map Prod.fst).length = (s.visited.map Prod.fst).toFinset.card :=
    (List.toFinset_card_of_nodup hnd).symm
  rw [h2]
  unfold keyBound
  rw [← List.card_toFinset]
  apply Finset.card_le_card
  intro x hx
  rw [List.mem_toFinset] at hx
  rw [List.mem_toFinset]
  exact hsub x hx

theorem rangeLoop_empties {g : Grid} {a : Axial} {m : ℚ}
    (HC : WellCosted g) (HK : NodupKeys g) :
    ∀ (fuel : ℕ) (s : RangeState), RInv g a m s →
      s.heap.length + keyBound g ≤ fuel + s.visited.length →
      (rangeLoop g a m fuel s).heap = [] := by
  intro fuel
  induction fuel with
  | zero =>
    intro s hinv hle
    have hv := visited_le_keyBound hinv
    simp only [rangeLoop]
    have hz : s.heap.length = 0 := by omega
    exact List.length_eq_zero.mp hz
  | succ f ih =>
    intro s hinv hle
    simp only [rangeLoop]
    by_cases hh : s.heap = []
    · rw [if_pos hh]
      exact hh
    · rw [if_neg hh]
      obtain ⟨hinv2, hacct⟩ := rangeStep_inv HC HK hinv
      rcases hacct with ⟨he, _⟩ | heq
      · exact absurd he hh
      · have hv2 := visited_le_keyBound hinv2
        exact ih _ hinv2 (by omega)

theorem toAxial_eq_of_key_eq {h1 h2 : Hexagon} (h : h1.key = h2.key) :
    h1.toAxial = h2.toAxial := by
  unfold Hexagon.key at h
  unfold Hexagon.toAxial
  simp only [Prod.mk.injEq] at h
  rw [h.1, h.2]

theorem toAxial_eq_of_key_eq_axial {h1 : Hexagon} {a : Axial} (h : h1.key = a.key) :
    h1.toAxial = a := by
  unfold Hexagon.key Axial.key at h
  unfold Hexagon.toAxial
  simp only [Prod.mk.injEq] at h
  rw [h.1, h.2]

theorem range_walk {g : Grid} {a : Axial} {m : ℚ} {s : RangeState}
    (HC : WellCosted g) (hinv : RInv g a m s) (hemp : s.heap = []) :
    ∀ (l : List Hexagon) (k : Key),
      (k = a.key ∨ findAssoc s.visited k ≠ none) →
      (resolveR a s k).G + pathCost l ≤ m →
      isPath g (resolveR a s k).hex.toAxial l →
      ∀ h2, l.getLast? = some h2 →
        (h2.key = a.key ∨ findAssoc s.visited h2.key ≠ none) := by
  have hclosedAll : ∀ k, (k = a.key ∨ findAssoc s.visited k ≠ none) → k ∈ s.closed := by
    intro k hk
    by_contra hnc
    have hmem : k ∈ s.heap := (hinv.heap_iff k).mpr ⟨hk, hnc⟩
    rw [hemp] at hmem
    simp at hmem
  have hGpos : ∀ k, (k = a.key ∨ findAssoc s.visited k ≠ none) → 0 ≤ (resolveR a s k).G := by
    intro k hk
    rcases hk with rfl | hk
    · rw [resolveR_none hinv.vstart]
      norm_num [rangeStartNode, mkSNode]
    · cases hfa : findAssoc s.visited k with
      | none => exact absurd hfa hk
      | some nd =>
        rw [resolveR_some hfa]
        exact hinv.vGpos k nd hfa
  intro l
  induction l with
  | nil =>
    intro k _ _ _ h2 hlast
    simp at hlast
  | cons h1 t ih =>
    intro k hk hbudget hpath h2 hlast
    obtain ⟨hn1, hb1, ht⟩ := hpath
    have hkc : k ∈ s.closed := hclosedAll k hk
    have hcl := hinv.expAll k hkc h1 hn1 hb1
    have hmem1 : h1 ∈ g.hexes := getNeighbors_subset hn1
    have hcost1 : 1 ≤ h1.cost := HC h1 hmem1
    have hmemt : ∀ x ∈ t, x ∈ g.hexes := isPath_mem_hexes ht
    have hpct : 0 ≤ pathCost t := pathCost_nonneg HC hmemt
    have hG := hGpos k hk
    rw [pathCost_cons] at hbudget
    cases t with
    | nil =>
      simp only [List.getLast?_singleton, Option.some.injEq] at hlast
      subst hlast
      rcases hcl with hcase | ⟨nd, hnd, _⟩ | hcase3
      · exact Or.inl hcase
      · refine Or.inr ?_
        rw [hnd]
        simp
      · exfalso
        simp [pathCost] at hbudget
        linarith
    | cons h1b t2 =>
      rw [List.getLast?_cons_cons] at hlast
      rcases hcl with hcase | ⟨nd, hnd, hbd⟩ | hcase3
      · refine ih a.key (Or.inl rfl) ?_ ?_ h2 hlast
        · rw [resolveR_none hinv.vstart]
          show (rangeStartNode a).G + _ ≤ m
          have hz : (rangeStartNode a).G = 0 := rfl
          rw [hz]
          linarith
        · rw [resolveR_none hinv.vstart]
          have hax : (rangeStartNode a).hex.toAxial = a := rfl
          rw [hax, ← toAxial_eq_of_key_eq_axial hcase]
          exact ht
      · refine ih h1.key (Or.inr (by rw [hnd]; simp)) ?_ ?_ h2 hlast
        · rw [resolveR_some hnd]
          linarith
        · rw [resolveR_some hnd]
          have hax : nd.hex.toAxial = h1.toAxial :=
            toAxial_eq_of_key_eq (hinv.vhexkey h1.key nd hnd)
          rw [hax]
          exact ht
      · exfalso
        have hpc2 : 0 ≤ pathCost (h1b :: t2) := hpct
        linarith

theorem getRange_final_inv {g : Grid} (a : Axial) (m : ℚ)
    (HC : WellCosted g) (HK : NodupKeys g) :
    RInv g a m (rangeLoop g a m (g.hexes.length + 2)
      { heap := [a.key], closed := [], visited := [] }) ∧
    (rangeLoop g a m (g.hexes.length + 2)
      { heap := [a.key], closed := [], visited := [] }).heap = [] := by
  constructor
  · exact rangeLoop_inv HC HK _ _ (rangeInit_inv g a m)
  · apply rangeLoop_empties HC HK _ _ (rangeInit_inv g a m)
    have hkb : keyBound g ≤ g.hexes.length := by
      unfold keyBound
      calc ((g.hexes.map Hexagon.key).dedup).length
          ≤ (g.hexes.map Hexagon.key).length := (List.dedup_sublist _).length_le
        _ = g.hexes.length := List.length_map _ _
    show 1 + keyBound g ≤ g.hexes.length + 2 + 0
    omega

theorem getRange_mem_iff {g : Grid} {a : Axial} {m : ℚ}
    (HC : WellCosted g) (HK : NodupKeys g) (h : Hexagon) :
    h ∈ getRange g a m ↔
      (h.key ≠ a.key ∧
        ∃ l, isPath g a l ∧ l ≠ [] ∧ l.getLast? = some h ∧ pathCost l ≤ m) := by
  obtain ⟨hinv, hemp⟩ := getRange_final_inv a m HC HK
  have hgr : getRange g a m = ((rangeLoop g a m (g.hexes.length + 2)
      { heap := [a.key], closed := [], visited := [] }).visited).map (fun p => p.2.hex) := rfl
  rw [hgr]
  constructor
  · intro hmem
    obtain ⟨p, hp, hph⟩ := List.mem_map.mp hmem
    have hfa := mem_findAssoc hinv.vkeys_nodup hp
    have hkey := hinv.vhexkey p.1 p.2 hfa
    constructor
    · rw [← hph, hkey]
      intro he
      rw [he] at hfa
      rw [hinv.vstart] at hfa
      cases hfa
    · obtain ⟨l, hpath, hne, hlast, hcost⟩ := hinv.vreal p.1 p.2 hfa
      refine ⟨l, hpath, hne, by rw [hlast, hph], ?_⟩
      have := hinv.vGmov p.1 p.2 hfa
      linarith
  · rintro ⟨hkey, l, hpath, hne, hlast, hcost⟩
    have hwalk := range_walk HC hinv hemp l a.key (Or.inl rfl) ?_ ?_ h hlast
    · rcases hwalk with hcase | hcase
      · exact absurd hcase hkey
      · cases hfa : findAssoc (rangeLoop g a m (g.hexes.length + 2)
            { heap := [a.key], closed := [], visited := [] }).visited h.key with
        | none => exact absurd hfa hcase
        | some nd =>
          have hmemh : h ∈ g.hexes := by
            refine isPath_mem_hexes hpath h ?_
            cases l with
            | nil => simp at hlast
            | cons x t =>
              exact List.mem_of_mem_getLast? hlast
          have hhex : nd.hex = h :=
            key_unique HK (hinv.vhexmem h.key nd hfa) hmemh (hinv.vhexkey h.key nd hfa)
          refine List.mem_map.mpr ⟨(h.key, nd), findAssoc_mem hfa, hhex⟩
    · rw [resolveR_none hinv.vstart]
      have hz : (rangeStartNode a).G = 0 := rfl
      rw [hz]
      linarith
    · rw [resolveR_none hinv.vstart]
      exact hpath

theorem mkHexagon_default (x y : ℤ) : mkHexagon x y 0 JsVal.undef = cellAt ⟨x, y⟩ := by
  show Hexagon.mk x y (if (0 : ℚ) = 0 then 1 else 0) false = Hexagon.mk x y 1 false
  rw [if_pos rfl]

theorem mem_mkGrid {r : ℤ} {h : Hexagon} :
    h ∈ (mkGrid r).hexes ↔ inB r h.toAxial ∧ h = cellAt h.toAxial := by
  constructor
  · intro hmem
    simp only [mkGrid, List.mem_flatMap, List.mem_map, List.mem_filter,
      beq_iff_eq, mem_intRange] at hmem
    obtain ⟨x, hx, y, hy, z, ⟨hz, hzeq⟩, hh⟩ := hmem
    rw [mkHexagon_default] at hh
    subst hh
    refine ⟨?_, rfl⟩
    show -r ≤ x ∧ x ≤ r ∧ -r ≤ y ∧ y ≤ r ∧ -r ≤ x + y ∧ x + y ≤ r
    omega
  · rintro ⟨hball, hcell⟩
    simp only [mkGrid, List.mem_flatMap, List.mem_map, List.mem_filter,
      beq_iff_eq, mem_intRange]
    have hb : -r ≤ h.x ∧ h.x ≤ r ∧ -r ≤ h.y ∧ h.y ≤ r ∧
        -r ≤ h.x + h.y ∧ h.x + h.y ≤ r := hball
    refine ⟨h.x, ⟨hb.1, hb.2.1⟩, h.y, ⟨hb.2.2.1, hb.2.2.2.1⟩,
      -(h.x + h.y), ⟨⟨by omega, by omega⟩, by omega⟩, ?_⟩
    rw [mkHexagon_default]
    exact hcell.symm

theorem mkGrid_wellCosted (r : ℤ) : WellCosted (mkGrid r) := by
  intro h hmem
  rw [(mem_mkGrid.mp hmem).2]
  exact le_refl 1

theorem nodup_flatMap_proj {α : Type} (proj : α → ℤ) :
    ∀ (l : List ℤ) (f : ℤ → List α), l.Nodup → (∀ x, (f x).Nodup) →
      (∀ x a, a ∈ f x → proj a = x) → (l.flatMap f).Nodup := by
  intro l
  induction l with
  | nil => intro f _ _ _; simp
  | cons x t ih =>
    intro f hnd hin hproj
    rw [List.flatMap_cons, List.nodup_append]
    refine ⟨hin x, ih f (List.nodup_cons.mp hnd).2 hin hproj, ?_⟩
    intro a ha ha2
    obtain ⟨y, hy, hay⟩ := List.mem_flatMap.mp ha2
    have h1 := hproj x a ha
    have h2 := hproj y a hay
    exact (List.nodup_cons.mp hnd).1 (by rw [← h1, h2]; exact hy)

theorem mkGrid_nodupKeys (r : ℤ) : NodupKeys (mkGrid r) := by
  show (((mkGrid r).hexes).map Hexagon.key).Nodup
  simp only [mkGrid]
  rw [List.map_flatMap]
  apply nodup_flatMap_proj Prod.fst _ _ (intRange_nodup _ _)
  · intro x
    rw [List.map_flatMap]
    apply nodup_flatMap_proj Prod.snd _ _ (intRange_nodup _ _)
    · intro y
      rw [List.map_map]
      apply nodup_of_length_le_one
      rw [List.length_map]
      have hfc : ((intRange (-r) r).filter fun z => x + y + z == 0)
          = (intRange (-r) r).filter fun z => z == -(x + y) := by
        refine List.filter_congr fun z hz => ?_
        rw [Bool.eq_iff_iff, beq_iff_eq, beq_iff_eq]
        omega
      rw [hfc, intRange_filter_single]
      by_cases hc : -r ≤ -(x + y) ∧ -(x + y) ≤ r
      · rw [if_pos hc]
      · rw [if_neg hc]
        omega
    · intro y k hk
      rw [List.map_map] at hk
      obtain ⟨z, hz, hzk⟩ := List.mem_map.mp hk
      rw [← hzk]
      rfl
  · intro x k hk
    rw [List.map_flatMap] at hk
    obtain ⟨y, hy, hk2⟩ := List.mem_flatMap.mp hk
    rw [List.map_map] at hk2
    obtain ⟨z, hz, hzk⟩ := List.mem_map.mp hk2
    rw [← hzk]
    rfl

theorem find?_eq_some_unique {p : Hexagon → Bool} {h : Hexagon} :
    ∀ {l : List Hexagon}, h ∈ l → p h = true → (∀ h2 ∈ l, p h2 = true → h2 = h) →
      l.find? p = some h := by
  intro l
  induction l with
  | nil => intro hmem _ _; cases hmem
  | cons a t ih =>
    intro hmem hp huniq
    cases ha : p a with
    | true =>
      rw [List.find?_cons_of_pos _ ha, huniq a (List.mem_cons_self a t) ha]
    | false =>
      rw [List.find?_cons_of_neg _ (by simp [ha])]
      refine ih ?_ hp ?_
      · rcases List.mem_cons.mp hmem with he | ht
        · rw [he] at hp
          rw [hp] at ha
          cases ha
        · exact ht
      · intro h2 h2t hp2
        exact huniq h2 (List.mem_cons_of_mem a h2t) hp2

theorem getHexAt_mkGrid {r : ℤ} {p : Axial} (hp : inB r p) :
    getHexAt (mkGrid r) p = some (cellAt p) := by
  unfold getHexAt
  apply find?_eq_some_unique
  · exact mem_mkGrid.mpr ⟨hp, rfl⟩
  · show ((cellAt p).x == p.x && (cellAt p).y == p.y) = true
    simp [cellAt]
  · intro h2 hmem hpred
    obtain ⟨hb, hcell⟩ := mem_mkGrid.mp hmem
    simp only [Bool.and_eq_true, beq_iff_eq] at hpred
    rw [hcell]
    have hax : h2.toAxial = p := by
      show Axial.mk h2.x h2.y = p
      rw [hpred.1, hpred.2]
    rw [hax]

theorem getNeighbors_mkGrid {r : ℤ} (u : Axial) (n : Hexagon) :
    n ∈ getNeighbors (mkGrid r) u ↔
      ∃ d ∈ neighborDirections u, inB r d ∧ n = cellAt d := by
  rw [mem_getNeighbors]
  constructor
  · rintro ⟨d, hd, hsome⟩
    obtain ⟨hmem, hx, hy⟩ := getHexAt_eq_some _ _ _ hsome
    obtain ⟨hb, hcell⟩ := mem_mkGrid.mp hmem
    have hax : n.toAxial = d := by
      show Axial.mk n.x n.y = d
      rw [hx, hy]
    refine ⟨d, hd, ?_, ?_⟩
    · rw [← hax]
      exact hb
    · rw [hcell, hax]
  · rintro ⟨d, hd, hin, rfl⟩
    exact ⟨d, hd, getHexAt_mkGrid hin⟩

theorem hex_descent {r : ℤ} {u v : Axial} (hu : inB r u) (hv : inB r v)
    (hne : distInt u v ≠ 0) :
    ∃ d ∈ neighborDirections u, inB r d ∧ distInt d v = distInt u v - 2 := by
  have hu2 : -r ≤ u.x ∧ u.x ≤ r ∧ -r ≤ u.y ∧ u.y ≤ r ∧
      -r ≤ u.x + u.y ∧ u.x + u.y ≤ r := hu
  have hv2 : -r ≤ v.x ∧ v.x ≤ r ∧ -r ≤ v.y ∧ v.y ≤ r ∧
      -r ≤ v.x + v.y ∧ v.x + v.y ≤ r := hv
  simp only [distInt, Int.abs_eq_natAbs] at hne
  by_cases c1 : u.x < v.x ∧ u.x + u.y < v.x + v.y
  · refine ⟨⟨u.x + 1, u.y⟩, by simp [neighborDirections], ?_, ?_⟩
    · show -r ≤ u.x + 1 ∧ u.x + 1 ≤ r ∧ -r ≤ u.y ∧ u.y ≤ r ∧
        -r ≤ u.x + 1 + u.y ∧ u.x + 1 + u.y ≤ r
      omega
    · simp only [distInt, Int.abs_eq_natAbs]
      omega
  by_cases c2 : u.x < v.x ∧ v.y < u.y
  · refine ⟨⟨u.x + 1, u.y - 1⟩, by simp [neighborDirections], ?_, ?_⟩
    · show -r ≤ u.x + 1 ∧ u.x + 1 ≤ r ∧ -r ≤ u.y - 1 ∧ u.y - 1 ≤ r ∧
        -r ≤ u.x + 1 + (u.y - 1) ∧ u.x + 1 + (u.y - 1) ≤ r
      omega
    · simp only [distInt, Int.abs_eq_natAbs]
      omega
  by_cases c3 : v.y < u.y ∧ v.x + v.y < u.x + u.y
  · refine ⟨⟨u.x, u.y - 1⟩, by simp [neighborDirections], ?_, ?_⟩
    · show -r ≤ u.x ∧ u.x ≤ r ∧ -r ≤ u.y - 1 ∧ u.y - 1 ≤ r ∧
        -r ≤ u.x + (u.y - 1) ∧ u.x + (u.y - 1) ≤ r
      omega
    · simp only [distInt, Int.abs_eq_natAbs]
      omega
  by_cases c4 : v.x < u.x ∧ v.x + v.y < u.x + u.y
  · refine ⟨⟨u.x - 1, u.y⟩, by simp [neighborDirections], ?_, ?_⟩
    · show -r ≤ u.x - 1 ∧ u.x - 1 ≤ r ∧ -r ≤ u.y ∧ u.y ≤ r ∧
        -r ≤ u.x - 1 + u.y ∧ u.x - 1 + u.y ≤ r
      omega
    · simp only [distInt, Int.abs_eq_natAbs]
      omega
  by_cases c5 : v.x < u.x ∧ u.y < v.y
  · refine ⟨⟨u.x - 1, u.y + 1⟩, by simp [neighborDirections], ?_, ?_⟩
    · show -r ≤ u.x - 1 ∧ u.x - 1 ≤ r ∧ -r ≤ u.y + 1 ∧ u.y + 1 ≤ r ∧
        -r ≤ u.x - 1 + (u.y + 1) ∧ u.x - 1 + (u.y + 1) ≤ r
      omega
    · simp only [distInt, Int.abs_eq_natAbs]
      omega
  by_cases c6 : u.y < v.y ∧ u.x + u.y < v.x + v.y
  · refine ⟨⟨u.x, u.y + 1⟩, by simp [neighborDirections], ?_, ?_⟩
    · show -r ≤ u.x ∧ u.x ≤ r ∧ -r ≤ u.y + 1 ∧ u.y + 1 ≤ r ∧
        -r ≤ u.x + (u.y + 1) ∧ u.x + (u.y + 1) ≤ r
      omega
    · simp only [distInt, Int.abs_eq_natAbs]
      omega
  exfalso
  omega

theorem distInt_even (u v : Axial) : ∃ nn : ℕ, distInt u v = 2 * (nn : ℤ) := by
  refine ⟨(distInt u v / 2).toNat, ?_⟩
  simp only [distInt, Int.abs_eq_natAbs]
  omega

theorem exists_path_mkGrid {r : ℤ} :
    ∀ (nn : ℕ) (u v : Axial), inB r u → inB r v → distInt u v = 2 * (nn : ℤ) →
      nn ≠ 0 →
      ∃ l : List Hexagon, isPath (mkGrid r) u l ∧ l.length = nn ∧
        l.getLast? = some (cellAt v) := by
  intro nn
  induction nn with
  | zero => intro u v _ _ _ h0; exact absurd rfl h0
  | succ k ih =>
    intro u v hu hv hd _
    have hne : distInt u v ≠ 0 := by
      rw [hd]
      omega
    obtain ⟨d, hdmem, hdin, hdd⟩ := hex_descent hu hv hne
    by_cases hz : k = 0
    · subst hz
      have h0 : distInt d v = 0 := by omega
      have hdv : d = v := (distInt_eq_zero d v).mp h0
      refine ⟨[cellAt v], ⟨?_, rfl, trivial⟩, rfl, rfl⟩
      exact (getNeighbors_mkGrid u (cellAt v)).mpr ⟨d, hdmem, hdin, by rw [hdv]⟩
    · obtain ⟨t, hpt, hlent, hlastt⟩ := ih d v hdin hv (by omega) hz
      refine ⟨cellAt d :: t, ⟨?_, rfl, ?_⟩, by simp [hlent], ?_⟩
      · exact (getNeighbors_mkGrid u (cellAt d)).mpr ⟨d, hdmem, hdin, rfl⟩
      · show isPath (mkGrid r) d t
        exact hpt
      · cases t with
        | nil =>
          exfalso
          apply hz
          simpa using hlent.symm
        | cons b t2 =>
          rw [List.getLast?_cons_cons]
          exact hlastt

theorem distInt_le_path {g : Grid} :
    ∀ (l : List Hexagon) (p : Axial) (h2 : Hexagon),
      isPath g p l → l.getLast? = some h2 →
      distInt p h2.toAxial ≤ 2 * (l.length : ℤ) := by
  intro l
  induction l with
  | nil => intro p h2 _ hlast; simp at hlast
  | cons h1 t ih =>
    intro p h2 hp hlast
    obtain ⟨hn, _, ht⟩ := hp
    obtain ⟨d, hd, hsome⟩ := (mem_getNeighbors _ _ _).mp hn
    obtain ⟨_, hx, hy⟩ := getHexAt_eq_some _ _ _ hsome
    have hax : h1.toAxial = d := by
      show Axial.mk h1.x h1.y = d
      rw [hx, hy]
    have hd1 : distInt p h1.toAxial = 2 := by
      rw [hax]
      exact distInt_neighborDirections p d hd
    cases t with
    | nil =>
      simp only [List.getLast?_singleton, Option.some.injEq] at hlast
      subst hlast
      simp only [List.length_cons, List.length_nil]
      omega
    | cons b t2 =>
      rw [List.getLast?_cons_cons] at hlast
      have hrec := ih h1.toAxial h2 ht hlast
      have htri := distInt_triangle p h2.toAxial h1.toAxial
      simp only [List.length_cons] at hrec ⊢
      push_cast at hrec ⊢
      omega

theorem pathCost_mkGrid {r : ℤ} :
    ∀ {l : List Hexagon}, (∀ h ∈ l, h ∈ (mkGrid r).hexes) →
      pathCost l = (l.length : ℚ) := by
  intro l
  induction l with
  | nil => intro _; rfl
  | cons h t ih =>
    intro hl
    rw [pathCost_cons, ih fun x hx => hl x (List.mem_cons_of_mem h hx)]
    have hc : h.cost = 1 := by
      rw [(mem_mkGrid.mp (hl h (List.mem_cons_self h t))).2]
      rfl
    rw [hc]
    simp only [List.length_cons]
    push_cast
    ring

theorem key_eq_iff_toAxial {h : Hexagon} {a : Axial} : h.key = a.key ↔ h.toAxial = a := by
  constructor
  · exact toAxial_eq_of_key_eq_axial
  · intro he
    show (h.x, h.y) = (a.x, a.y)
    have h1 : h.x = a.x := congrArg Axial.x he
    have h2 : h.y = a.y := congrArg Axial.y he
    rw [h1, h2]

theorem getRange_mkGrid_ball {r : ℤ} {a : Axial} {m : ℚ} (ha : inB r a) (h : Hexagon) :
    h ∈ getRange (mkGrid r) a m ↔
      (h ∈ (mkGrid r).hexes ∧ 0 < getDistance a h.toAxial ∧
        getDistance a h.toAxial ≤ m) := by
  rw [getRange_mem_iff (mkGrid_wellCosted r) (mkGrid_nodupKeys r) h]
  constructor
  · rintro ⟨hkey, l, hpath, hne, hlast, hcost⟩
    have hmemhex : h ∈ (mkGrid r).hexes :=
      isPath_mem_hexes hpath h (List.mem_of_mem_getLast? hlast)
    refine ⟨hmemhex, ?_, ?_⟩
    · have hz : distInt a h.toAxial ≠ 0 := fun h0 =>
        hkey (key_eq_iff_toAxial.mpr ((distInt_eq_zero a h.toAxial).mp h0).symm)
      have hpos : 0 < distInt a h.toAxial :=
        lt_of_le_of_ne (distInt_nonneg a h.toAxial) (Ne.symm hz)
      have hq : (0 : ℚ) < (distInt a h.toAxial : ℚ) := by exact_mod_cast hpos
      rw [getDistance_eq_distInt]
      linarith
    · have h1 := distInt_le_path l a h hpath hlast
      have hq : (distInt a h.toAxial : ℚ) ≤ 2 * (l.length : ℚ) := by exact_mod_cast h1
      have h2 := pathCost_mkGrid (isPath_mem_hexes hpath)
      rw [h2] at hcost
      rw [getDistance_eq_distInt]
      linarith
  · rintro ⟨hmemhex, hpos, hle⟩
    obtain ⟨hball, hcell⟩ := mem_mkGrid.mp hmemhex
    obtain ⟨nn, hnn⟩ := distInt_even a h.toAxial
    have hnz : nn ≠ 0 := by
      rintro rfl
      rw [getDistance_eq_distInt, hnn] at hpos
      norm_num at hpos
    obtain ⟨l, hpath, hlen, hlast⟩ := exists_path_mkGrid nn a h.toAxial ha hball hnn hnz
    refine ⟨?_, l, hpath, ?_, ?_, ?_⟩
    · intro hk
      have hax : h.toAxial = a := key_eq_iff_toAxial.mp hk
      have h0 : distInt a a = 0 := (distInt_eq_zero a a).mpr rfl
      rw [getDistance_eq_distInt, hax, h0] at hpos
      norm_num at hpos
    · intro h0
      rw [h0] at hlen
      exact hnz hlen.symm
    · rw [hlast, ← hcell]
    · rw [pathCost_mkGrid (isPath_mem_hexes hpath), hlen]
      rw [getDistance_eq_distInt, hnn] at hle
      push_cast at hle
      linarith

/-- C7: for every well-formed grid (all costs at least 1, distinct cell
keys) and every start and budgets m, m2: the range at budget 0 is empty;
the start cell is never a member of its own range; the range grows
monotonically with the budget; and on a constructed grid (uniform cost 1,
nothing blocked) the range at budget m from an on-board start is exactly
the set of board cells at hex distance at most m from the start, the start
itself excluded. -/
theorem getRange_properties :
    (∀ (g : Grid) (a : Axial), WellCosted g → NodupKeys g → getRange g a 0 = []) ∧
    (∀ (g : Grid) (a : Axial) (m : ℚ), WellCosted g → NodupKeys g →
      ∀ h ∈ getRange g a m, ¬(h.x = a.x ∧ h.y = a.y)) ∧
    (∀ (g : Grid) (a : Axial) (m m2 : ℚ), WellCosted g → NodupKeys g → m ≤ m2 →
      ∀ h ∈ getRange g a m, h ∈ getRange g a m2) ∧
    (∀ (r : ℤ) (a : Axial) (m : ℚ), inB r a →
      ∀ h : Hexagon, h ∈ getRange (mkGrid r) a m ↔
        (h ∈ (mkGrid r).hexes ∧ 0 < getDistance a h.toAxial ∧
          getDistance a h.toAxial ≤ m)) := by
  refine ⟨?_, ?_, ?_, ?_⟩
  · intro g a HC HK
    rw [List.eq_nil_iff_forall_not_mem]
    intro h hmem
    obtain ⟨hkey, l, hpath, hne, hlast, hcost⟩ := (getRange_mem_iff HC HK h).mp hmem
    have h1 : 1 ≤ pathCost l := by
      cases l with
      | nil => exact absurd rfl hne
      | cons x t =>
        rw [pathCost_cons]
        have hx : 1 ≤ x.cost := HC x (isPath_mem_hexes hpath x (List.mem_cons_self x t))
        have ht : 0 ≤ pathCost t := by
          apply pathCost_nonneg HC
          intro y hy
          exact isPath_mem_hexes hpath y (List.mem_cons_of_mem x hy)
        linarith
    linarith
  · intro g a m HC HK h hmem hco
    obtain ⟨hkey, _⟩ := (getRange_mem_iff HC HK h).mp hmem
    apply hkey
    show (h.x, h.y) = (a.x, a.y)
    rw [hco.1, hco.2]
  · intro g a m m2 HC HK hmm h hmem
    obtain ⟨hkey, l, hpath, hne, hlast, hcost⟩ := (getRange_mem_iff HC HK h).mp hmem
    exact (getRange_mem_iff HC HK h).mpr ⟨hkey, l, hpath, hne, hlast, le_trans hcost hmm⟩
  · intro r a m ha h
    exact getRange_mkGrid_ball ha h

/-- Witness of getRange_properties on the radius-1 grid with start (0,0):
budget 0 gives the empty range, the cell (1,0) of the budget-1 range is
not the start, it persists at budget 2, and the distance-ball reading of
the budget-1 range holds at it. -/
theorem getRange_properties_witness :
    getRange (mkGrid 1) ⟨0, 0⟩ 0 = [] ∧
    ¬((cellAt ⟨1, 0⟩).x = (0 : ℤ) ∧ (cellAt ⟨1, 0⟩).y = (0 : ℤ)) ∧
    cellAt ⟨1, 0⟩ ∈ getRange (mkGrid 1) ⟨0, 0⟩ 2 ∧
    (cellAt ⟨1, 0⟩ ∈ getRange (mkGrid 1) ⟨0, 0⟩ 1 ↔
      (cellAt ⟨1, 0⟩ ∈ (mkGrid 1).hexes ∧
        0 < getDistance ⟨0, 0⟩ (cellAt ⟨1, 0⟩).toAxial ∧
        getDistance ⟨0, 0⟩ (cellAt ⟨1, 0⟩).toAxial ≤ 1)) := by
  have hWC : WellCosted (mkGrid 1) := by unfold WellCosted; decide
  have hNK : NodupKeys (mkGrid 1) := by unfold NodupKeys; decide
  have hmem : cellAt ⟨1, 0⟩ ∈ getRange (mkGrid 1) ⟨0, 0⟩ 1 := by decide
  have hin : inB 1 (⟨0, 0⟩ : Axial) := by unfold inB; decide
  exact ⟨getRange_properties.1 (mkGrid 1) ⟨0, 0⟩ hWC hNK,
    getRange_properties.2.1 (mkGrid 1) ⟨0, 0⟩ 1 hWC hNK (cellAt ⟨1, 0⟩) hmem,
    getRange_properties.2.2.1 (mkGrid 1) ⟨0, 0⟩ 1 2 hWC hNK (by norm_num)
      (cellAt ⟨1, 0⟩) hmem,
    getRange_properties.2.2.2 1 ⟨0, 0⟩ 1 hin (cellAt ⟨1, 0⟩)⟩

end BHex
